import Mathlib

/-!
Shallow embedding of the core of the Hardlink-Based File Explorer
(`hardlink_manager`): the hardlink primitives (`core/hardlink_ops.py`),
the mirror-group sync engine (`core/sync.py`), the discovery algorithms
(`core/mirror_groups.py`) and the debounced watcher (`core/watcher.py`),
together with theorems settling the specification claims about them.

Conventions of the embedding:
* Absolute, normalized filesystem paths are modelled as lists of path
  components (`Path`), so `os.path.normpath`/`os.path.abspath` are the
  identity, `os.path.join` is `++`, `os.path.dirname` is `dropLast` and
  `os.path.basename` is `getLast?`.  Inputs are assumed already
  normalized, which is exactly what the Python code establishes before
  comparing paths.
* `FileId` is the `(st_dev, st_ino)` pair used throughout the source.
* Fallible Python code (raised exceptions) becomes `Except`/`Option`
  results; the distinct Python exception types become constructors of an
  error type.
-/

namespace HardlinkManager

/-- A normalized absolute path, as its list of components. -/
abbrev Path := List String

/-- The `(st_dev, st_ino)` pair: device id and inode number, the file
identity used by every "already linked" check in the source. -/
structure FileId where
  dev : Nat
  ino : Nat
deriving DecidableEq, Repr

/-- `MIRROR_MARKER` from `core/mirror_groups.py`: the hidden per-folder
marker filename. -/
def MIRROR_MARKER : String := ".hardlink_mirror"

/-! ## Filesystem model for `core/hardlink_ops.py` (claim C5)

A small filesystem with regular files, directories and symlinks, enough
to evaluate every check `create_hardlink` performs.  Directories carry
their device id (for `is_same_volume`); symlink targets are resolved one
level (modelled states do not chain symlinks). -/

/-- A directory entry in the `hardlink_ops` model: a regular file with
its identity, a directory on a device, or a symlink to a target path. -/
inductive Node where
  | file (id : FileId)
  | dir (dev : Nat)
  | symlink (target : Path)
deriving DecidableEq, Repr

/-- Filesystem for the `hardlink_ops` model: a finite map from absolute
paths to nodes, as an association list. -/
structure OpsFS where
  nodes : List (Path × Node)
deriving DecidableEq, Repr

/-- Look up the node stored at a path (no symlink resolution). -/
def OpsFS.lookup (fs : OpsFS) (p : Path) : Option Node :=
  (fs.nodes.find? (fun e => e.1 = p)).map (·.2)

/-- `os.path.exists`: true for a file or directory, and for a symlink
whose target is a file or directory (a broken symlink does not exist). -/
def OpsFS.existsPath (fs : OpsFS) (p : Path) : Bool :=
  match fs.lookup p with
  | some (.file _) => true
  | some (.dir _) => true
  | some (.symlink t) =>
    match fs.lookup t with
    | some (.file _) => true
    | some (.dir _) => true
    | _ => false
  | none => false

/-- `utils/filesystem.is_regular_file`: `os.path.isfile(path) and not
os.path.islink(path)` — only a plain regular file qualifies. -/
def OpsFS.isRegularFile (fs : OpsFS) (p : Path) : Bool :=
  match fs.lookup p with
  | some (.file _) => true
  | _ => false

/-- `os.path.isdir`, following a symlink one level. -/
def OpsFS.isDirPath (fs : OpsFS) (p : Path) : Bool :=
  match fs.lookup p with
  | some (.dir _) => true
  | some (.symlink t) =>
    match fs.lookup t with
    | some (.dir _) => true
    | _ => false
  | none => false
  | some (.file _) => false

/-- Device id of the node an existing path resolves to (used by
`is_same_volume`, which stats both paths). -/
def OpsFS.devOf (fs : OpsFS) (p : Path) : Option Nat :=
  match fs.lookup p with
  | some (.file id) => some id.dev
  | some (.dir d) => some d
  | some (.symlink t) =>
    match fs.lookup t with
    | some (.file id) => some id.dev
    | some (.dir d) => some d
    | _ => none
  | none => none

/-- `utils/filesystem.is_same_volume` on the non-Windows branch: compare
the `st_dev` of the two (existing) paths. -/
def OpsFS.sameVolume (fs : OpsFS) (p q : Path) : Bool :=
  match fs.devOf p, fs.devOf q with
  | some d1, some d2 => d1 = d2
  | _, _ => false

/-- The typed errors `create_hardlink` raises: `FileNotFoundError`,
`ValueError` (wrong entry type or cross-volume), `NotADirectoryError`
and `FileExistsError`.  In the spec's taxonomy these are NotFound,
InvalidArgument, an OS error, and AlreadyExists. -/
inductive HardlinkErr where
  | notFound
  | invalidArgument
  | notADirectory
  | alreadyExists
deriving DecidableEq, Repr

/-- `core/hardlink_ops.create_hardlink(source_path, dest_dir, dest_name)`:
the checks in source order — source exists, source is a plain regular
file, destination is a directory, same volume, destination name free —
then the `os.link` call (which in the model always succeeds once the
checks pass). -/
def createHardlink (fs : OpsFS) (sourcePath destDir : Path)
    (destName : Option String) : Except HardlinkErr (OpsFS × Path) :=
  if ¬ fs.existsPath sourcePath then
    .error .notFound
  else if ¬ fs.isRegularFile sourcePath then
    .error .invalidArgument
  else if ¬ fs.isDirPath destDir then
    .error .notADirectory
  else if ¬ fs.sameVolume sourcePath destDir then
    .error .invalidArgument
  else
    let name := match destName with
      | some n => n
      | none => (sourcePath.getLast?).getD ""
    let destPath := destDir ++ [name]
    if fs.existsPath destPath then
      .error .alreadyExists
    else
      match fs.lookup sourcePath, fs.lookup destPath with
      | some (.file id), none =>
        .ok (⟨fs.nodes ++ [(destPath, .file id)]⟩, destPath)
      | some (.file _), some _ =>
        -- `os.path.exists` is false for a broken symlink, but `os.link`
        -- itself still fails with `FileExistsError` on the raw entry.
        .error .alreadyExists
      | _, _ => .error .invalidArgument

/-! ## Filesystem model for `core/sync.py` (claims C1, C2, C3, C4, C9, C10)

The sync engine walks member folders, inventories regular files by
`(st_dev, st_ino)` and replicates them by hardlink.  The model contains
regular files and directories; the folder-symlink replication phase of
`sync_group`/`sync_file_to_group` is orthogonal to the claims and is not
modelled (modelled states hold only files and directories).

`files` is kept in a stable enumeration order standing for the order in
which `os.walk` yields entries; newly created links are appended, which
matches the fact that a directory's existing entries keep their relative
enumeration order when an entry is added. -/

/-- Filesystem for the sync model: regular files with identities,
directories with their device id, and the device of the root directory
`[]` (which always exists). -/
structure SyncFS where
  files : List (Path × FileId)
  dirs : List (Path × Nat)
  rootDev : Nat
deriving DecidableEq, Repr

/-- Decide whether `folder` is a proper ancestor of `p`
(`p.startswith(folder + os.sep)` on normalized absolute paths). -/
def underFolder (folder p : Path) : Bool :=
  folder.isPrefixOf p && decide (folder.length < p.length)

/-- `os.path.relpath(p, folder)` for `p` under `folder`. -/
def relOf (folder p : Path) : Path :=
  p.drop folder.length

/-- `os.stat` restricted to regular files: the identity stored for the
path, if a file is recorded there. -/
def SyncFS.statFile (fs : SyncFS) (p : Path) : Option FileId :=
  (fs.files.find? (fun e => e.1 = p)).map (·.2)

/-- `os.path.isdir`: the root `[]` always exists; other paths must be
recorded directories. -/
def SyncFS.isDir (fs : SyncFS) (p : Path) : Bool :=
  p = [] || (fs.dirs.find? (fun e => e.1 = p)).isSome

/-- Device id of a directory (`st_dev` of its stat). -/
def SyncFS.dirDev (fs : SyncFS) (p : Path) : Option Nat :=
  if p = [] then some fs.rootDev
  else (fs.dirs.find? (fun e => e.1 = p)).map (·.2)

/-- `os.path.exists` in the sync model: a file or a directory. -/
def SyncFS.pathExists (fs : SyncFS) (p : Path) : Bool :=
  (fs.statFile p).isSome || fs.isDir p

/-- A mirror group as the sync engine consumes it: the ordered member
folder list (normalized absolute paths) and the auto-sync flag, from the
`MirrorGroup` dataclass of `core/mirror_groups.py`. -/
structure MirrorGroup where
  folders : List Path
  syncEnabled : Bool
deriving DecidableEq, Repr

/-- The `os.walk` inventory of one member folder: the recorded files
strictly under it, in enumeration order, minus entries named
`MIRROR_MARKER` (`if fname == MIRROR_MARKER: continue`). -/
def walkFolder (fs : SyncFS) (folder : Path) : List (Path × FileId) :=
  fs.files.filter
    (fun e => underFolder folder e.1 && decide (e.1.getLast? ≠ some MIRROR_MARKER))

/-- One inventoried file of `sync_group`: its `(st_dev, st_ino)` key and
the `(full_path, rel_path)` value stored in `unique_files`. -/
structure InvEntry where
  key : FileId
  src : Path
  rel : Path
deriving DecidableEq, Repr

/-- The walk phase of `sync_group` flattened: every `(folder, file)`
pair the nested `for` loops visit, in visiting order.  Folders that are
not directories are skipped (`if not os.path.isdir(folder): continue`). -/
def walkEntries (fs : SyncFS) (g : MirrorGroup) : List (Path × Path × FileId) :=
  g.folders.flatMap (fun folder =>
    if fs.isDir folder then (walkFolder fs folder).map (fun e => (folder, e)) else [])

/-- One step of building `unique_files`: record the file under its
identity key unless the key was already seen
(`if key not in unique_files`). -/
def addInv (acc : List InvEntry) (folder : Path) (e : Path × FileId) : List InvEntry :=
  if (acc.find? (fun x => x.key = e.2)).isSome then acc
  else acc ++ [⟨e.2, e.1, relOf folder e.1⟩]

/-- The `unique_files` dictionary of `sync_group`, in insertion order:
first walked occurrence of each identity wins. -/
def inventory (fs : SyncFS) (g : MirrorGroup) : List InvEntry :=
  (walkEntries fs g).foldl (fun acc p => addInv acc p.1 p.2) []

/-- `os.makedirs(d, exist_ok=True)`: create every missing ancestor of
`d` and `d` itself as directories, each new directory living on its
parent's device; fail (`FileExistsError`/`NotADirectoryError`) if a
regular file occupies any needed path.  Runs outside any `try` in
`sync_group`, so its failure aborts the whole sync. -/
def makedirsGo (fs : SyncFS) (d : Path) : Nat → Except Unit SyncFS
  | 0 => .ok fs
  | n + 1 => do
    let fs' ← makedirsGo fs d n
    let p := d.take (n + 1)
    if (fs'.statFile p).isSome then .error ()
    else if fs'.isDir p then .ok fs'
    else
      .ok { fs' with
            dirs := fs'.dirs ++ [(p, (fs'.dirDev p.dropLast).getD fs'.rootDev)] }

/-- `os.makedirs(d, exist_ok=True)` (see `makedirsGo`). -/
def makedirs (fs : SyncFS) (d : Path) : Except Unit SyncFS :=
  makedirsGo fs d d.length

/-- `create_hardlink` from `core/hardlink_ops.py`, evaluated on the sync
model (no symlinks): source must exist and be a regular file, the
destination must be a directory on the same volume, and the destination
name must be free; then the link is a new directory entry with the
source's identity. -/
def createHardlinkSync (fs : SyncFS) (sourcePath destDir : Path) (name : String) :
    Except HardlinkErr (SyncFS × Path) :=
  match fs.statFile sourcePath with
  | none =>
    if fs.isDir sourcePath then .error .invalidArgument else .error .notFound
  | some id =>
    if ¬ fs.isDir destDir then .error .notADirectory
    else if fs.dirDev destDir ≠ some id.dev then .error .invalidArgument
    else
      let destPath := destDir ++ [name]
      if fs.pathExists destPath then .error .alreadyExists
      else .ok ({ fs with files := fs.files ++ [(destPath, id)] }, destPath)

/-- `_find_root_folder` from `core/sync.py`: the first group folder that
equals the path or is a proper ancestor of it. -/
def findRootFolder (filePath : Path) (g : MirrorGroup) : Option Path :=
  g.folders.find? (fun folder => folder = filePath || underFolder folder filePath)

/-- The body of the per-folder loop shared by `sync_file_to_group` and
`sync_group`: skip when the destination path exists (already linked or
name collision), otherwise `os.makedirs` the destination directory
(uncaught on failure) and attempt `create_hardlink`, swallowing its
errors (`except (OSError, ValueError, FileExistsError): continue`). -/
def linkIntoFolder (key : FileId) (src rel : Path)
    (st : SyncFS × List (Path × Path)) (folder : Path) :
    Except Unit (SyncFS × List (Path × Path)) :=
  let dest := folder ++ rel
  if st.1.pathExists dest then .ok st
  else do
    let fs2 ← makedirs st.1 dest.dropLast
    match createHardlinkSync fs2 src dest.dropLast ((rel.getLast?).getD "") with
    | .ok (fs3, dpath) => .ok (fs3, st.2 ++ [(dpath, src)])
    | .error _ => .ok (fs2, st.2)

/-- The inner `for folder in group.folders` loop of `sync_group` for one
`unique_files` entry. -/
def linkEverywhere (key : FileId) (src rel : Path)
    (st : SyncFS × List (Path × Path)) :
    List Path → Except Unit (SyncFS × List (Path × Path))
  | [] => .ok st
  | folder :: rest => do
    let st' ← linkIntoFolder key src rel st folder
    linkEverywhere key src rel st' rest

/-- The outer `for (dev, inode), (source_path, rel_path) in
unique_files.items()` loop of `sync_group`. -/
def linkAllEntries (folders : List Path) (st : SyncFS × List (Path × Path)) :
    List InvEntry → Except Unit (SyncFS × List (Path × Path))
  | [] => .ok st
  | e :: rest => do
    let st' ← linkEverywhere e.key e.src e.rel st folders
    linkAllEntries folders st' rest

/-- `sync_group(group)` from `core/sync.py` (hardlink phase; the
folder-symlink replication phase is outside the model): no-op below 2
member folders, otherwise inventory every member folder by identity and
ensure each inventoried file exists at its recorded relative path in
every member folder, returning the `created` mapping (destination path,
source path) in creation order.  An `os.makedirs` failure propagates
(`Except.error`). -/
def syncGroup (fs : SyncFS) (g : MirrorGroup) :
    Except Unit (SyncFS × List (Path × Path)) :=
  if g.folders.length < 2 then .ok (fs, [])
  else linkAllEntries g.folders (fs, []) (inventory fs g)

/-- The per-folder loop of `sync_file_to_group`: identical to
`sync_group`'s inner loop except that the source's own root folder is
skipped. -/
def syncFileFolders (root : Path) (key : FileId) (src rel : Path)
    (st : SyncFS × List (Path × Path)) :
    List Path → Except Unit (SyncFS × List (Path × Path))
  | [] => .ok st
  | folder :: rest => do
    let st' ←
      if folder = root then .ok st
      else linkIntoFolder key src rel st folder
    syncFileFolders root key src rel st' rest

/-- `sync_file_to_group(source_path, group)` from `core/sync.py`: marker
files are never propagated, sources outside every member folder are
ignored, otherwise the file is hardlinked at the same relative path into
every other member folder.  Returns the list of created paths.  A
missing source makes the initial `os.stat` raise (`Except.error`), as in
the source. -/
def syncFileToGroup (fs : SyncFS) (sourcePath : Path) (g : MirrorGroup) :
    Except Unit (SyncFS × List Path) :=
  if sourcePath.getLast? = some MIRROR_MARKER then .ok (fs, [])
  else
    match findRootFolder sourcePath g with
    | none => .ok (fs, [])
    | some root =>
      match fs.statFile sourcePath with
      | none => .error ()
      | some id => do
        let st ← syncFileFolders root id sourcePath (relOf root sourcePath) (fs, []) g.folders
        .ok (st.1, st.2.map (·.1))

/-- `fs'` extends `fs`: the sync engine only ever appends file and
directory entries, so the start-of-pass state embeds, in order, into the
end-of-pass state. -/
def SyncFS.Extends (fs fs' : SyncFS) : Prop :=
  (∃ e, fs'.files = fs.files ++ e) ∧ (∃ d, fs'.dirs = fs.dirs ++ d) ∧
    fs'.rootDev = fs.rootDev

/-- Well-formed sync states: realizable filesystems.  File paths are
distinct and non-root, every proper ancestor of a file is a directory,
and no path is simultaneously a file and a directory. -/
def SyncFS.WF (fs : SyncFS) : Prop :=
  (fs.files.map (·.1)).Nodup ∧
  (∀ e ∈ fs.files, e.1 ≠ [] ∧ (∀ i < e.1.length, fs.isDir (e.1.take i) = true)) ∧
  (∀ e ∈ fs.files, fs.isDir e.1 = false)

/-- Outcome of one `sync_group` linking attempt for identity `key` at
relative path `rel` in `folder`, as visible in the final state: either
the link is there, or an unrelated file occupies the name, or a
directory occupies the name, or the destination directory sits on a
different volume than the file (so `create_hardlink` refused and will
keep refusing), with its ancestor chain fully created. -/
def GoodAt (fs : SyncFS) (folder rel : Path) (key : FileId) : Prop :=
  (folder ++ rel, key) ∈ fs.files ∨
  (∃ j, fs.statFile (folder ++ rel) = some j ∧ j ≠ key) ∨
  fs.isDir (folder ++ rel) = true ∨
  ((∀ i ≤ (folder ++ rel).dropLast.length,
      fs.isDir ((folder ++ rel).dropLast.take i) = true) ∧
   (∃ d, fs.dirDev ((folder ++ rel).dropLast) = some d ∧ d ≠ key.dev))

/-! ## Model for the content-fingerprint scan of `core/mirror_groups.py`
(claim C6)

`scan_content_mirrors` fingerprints every directory: each contained
regular file contributes the SHA-256 of its bytes, each subdirectory its
own fingerprint; both lists are sorted, joined with separators and
hashed again.  Hex digests have fixed length, so the joined string
determines the two sorted lists; SHA-256 collisions aside, both hashing
steps are injective, which the model captures by using injective
`Nat.pair`-based encodings as the hashes.  Symlinked entries are skipped
by the source (`follow_symlinks=False`) and do not appear in the
model. -/

/-- File contents as a byte list. -/
abbrev Bytes := List Nat

/-- The directory trees the fingerprint scan walks: named regular files
with contents, and named subdirectories. -/
inductive DirTree where
  | node : List (String × Bytes) → List (String × DirTree) → DirTree

/-- Injective encoding of a number list (the model's stand-in for
hashing a `;`-joined list of fixed-width hex digests). -/
def natListCode : List Nat → Nat
  | [] => 0
  | x :: xs => Nat.pair x (natListCode xs) + 1

/-- Model of `_hash_file`: the SHA-256 of the file bytes, as an
injective code. -/
def hashBytes (b : Bytes) : Nat := natListCode b

/-- Model of the final `hashlib.sha256(';'.join(file_fps) + '|' +
';'.join(child_fps))`: an injective code of the two lists. -/
def combineHash (fileFps childFps : List Nat) : Nat :=
  Nat.pair (natListCode fileFps) (natListCode childFps)

mutual
/-- `_dir_fingerprint` from `scan_content_mirrors`: marker files are
skipped, every other file contributes its content hash, every
subdirectory with a non-`None` fingerprint contributes it; both lists
are sorted and combined; a directory contributing nothing fingerprints
to `None`. -/
def dirFingerprint : DirTree → Option Nat
  | .node files children =>
    let fileFps := (files.filter (fun e => e.1 ≠ MIRROR_MARKER)).map
      (fun e => hashBytes e.2)
    let childFps := childFingerprints children
    if fileFps = [] ∧ childFps = [] then none
    else some (combineHash (fileFps.insertionSort (· ≤ ·))
      (childFps.insertionSort (· ≤ ·)))

/-- The `child_fps` accumulation: fingerprints of the subdirectories,
in order, skipping `None` results. -/
def childFingerprints : List (String × DirTree) → List Nat
  | [] => []
  | (_, t) :: rest =>
    match dirFingerprint t with
    | some fp => fp :: childFingerprints rest
    | none => childFingerprints rest
end

mutual
/-- Rename every file with `σf` and every directory with `σd`. -/
def renameTree (σf σd : String → String) : DirTree → DirTree
  | .node files children =>
    .node (files.map (fun e => (σf e.1, e.2)))
      (renameChildren σf σd children)

/-- Rename the children of a directory (see `renameTree`). -/
def renameChildren (σf σd : String → String) :
    List (String × DirTree) → List (String × DirTree)
  | [] => []
  | (n, t) :: rest => (σd n, renameTree σf σd t) :: renameChildren σf σd rest
end

/-- Content of the `i`-th file of the directory reached by following the
child indices in `path`. -/
def getContent : DirTree → List Nat → Nat → Option (String × Bytes)
  | .node files _, [], i => files[i]?
  | .node _ children, j :: rest, i =>
    match children[j]? with
    | some (_, t) => getContent t rest i
    | none => none

/-- Replace the content of the `i`-th file of the directory reached by
following the child indices in `path` (the one-byte-change experiment of
the claim). -/
def replaceContent : DirTree → List Nat → Nat → Bytes → Option DirTree
  | .node files children, [], i, c =>
    match files[i]? with
    | some (n, _) => some (.node (files.set i (n, c)) children)
    | none => none
  | .node files children, j :: rest, i, c =>
    match children[j]? with
    | some (n, t) =>
      match replaceContent t rest i c with
      | some t2 => some (.node files (children.set j (n, t2)))
      | none => none
    | none => none

mutual
/-- The specification-side relation of claim C6, written from the
spec's words: two directories whose recursive contents are byte-identical
modulo file and folder names — the multiset of contained file contents
agrees and the subdirectories correspond, in some order, with
byte-identical contents. -/
inductive SameShape : DirTree → DirTree → Prop where
  | node {files₁ files₂ : List (String × Bytes)}
      {children₁ children₂ : List (String × DirTree)} :
      (files₁.map Prod.snd).Perm (files₂.map Prod.snd) →
      TreesPerm (children₁.map Prod.snd) (children₂.map Prod.snd) →
      SameShape (.node files₁ children₁) (.node files₂ children₂)

/-- Permutation of tree lists up to `SameShape`. -/
inductive TreesPerm : List DirTree → List DirTree → Prop where
  | nil : TreesPerm [] []
  | cons {t₁ t₂ : DirTree} {l₁ l₂ : List DirTree} :
      SameShape t₁ t₂ → TreesPerm l₁ l₂ → TreesPerm (t₁ :: l₁) (t₂ :: l₂)
  | swap {t₁ t₂ : DirTree} {l : List DirTree} :
      TreesPerm (t₁ :: t₂ :: l) (t₂ :: t₁ :: l)
  | trans {l₁ l₂ l₃ : List DirTree} :
      TreesPerm l₁ l₂ → TreesPerm l₂ l₃ → TreesPerm l₁ l₃
end

/-! ## Model for the hardlink-adjacency scan of `core/mirror_groups.py`
(claim C7)

`scan_for_mirrors` (lines 463-545) walks each input folder collecting,
per file identity `(st_dev, st_ino)`, the set of folder indices holding
it; it unions folders sharing an identity with a path-compressed
union-find; components of size at least 2 whose folder set is not yet
registered become new groups.  Folders enter the model after the
`isdir` filter and normalisation of line 477, as a name plus the
identities of the files walked under it; registry groups are their
folder-name lists.  Indices join each identity's set in ascending
order, so the insertion-ordered list below also reproduces the
iteration order of the Python integer set. -/

/-- `inode_to_folders[key].add(idx)` on the model's index list. -/
def addIdx (s : List Nat) (i : Nat) : List Nat :=
  if i ∈ s then s else s ++ [i]

/-- One inner-loop step of lines 490-494: record that folder `idx`
contains identity `k`, creating the entry on first sight. -/
def addKey (m : List (FileId × List Nat)) (k : FileId) (idx : Nat) :
    List (FileId × List Nat) :=
  if (m.find? (fun e => e.1 = k)).isSome then
    m.map (fun e => if e.1 = k then (e.1, addIdx e.2 idx) else e)
  else m ++ [(k, [idx])]

/-- The `inode_to_folders` map of lines 483-496, entries in insertion
order. -/
def buildInode (folders : List (List FileId)) : List (FileId × List Nat) :=
  folders.enum.foldl
    (fun m p => p.2.foldl (fun m2 k2 => addKey m2 k2 p.1) m) []

/-- Path-compressed `find` (lines 502-506): `while parent[x] != x:
parent[x] = parent[parent[x]]; x = parent[x]`, fuelled by the array
length, which bounds the loop on every acyclic parent array. -/
def ufFind : Nat → List Nat → Nat → List Nat × Nat
  | 0, par, x => (par, x)
  | fuel + 1, par, x =>
    let px := par.getD x x
    if px = x then (par, x)
    else ufFind fuel (par.set x (par.getD px px)) (par.getD px px)

/-- The root `find` returns, projecting away the compressed array. -/
def findRoot (par : List Nat) (x : Nat) : Nat := (ufFind par.length par x).2

/-- `union` (lines 508-511): find both roots — the second `find` sees
the compression left by the first — and attach root to root. -/
def ufUnion (par : List Nat) (a b : Nat) : List Nat :=
  let fa := ufFind par.length par a
  let fb := ufFind fa.1.length fa.1 b
  if fa.2 = fb.2 then fb.1 else fb.1.set fa.2 fb.2

/-- The union loop (lines 513-518): for every identity held by at
least two folders, union the first listed index with each other one. -/
def applyUnions (inode : List (FileId × List Nat)) (par : List Nat) :
    List Nat :=
  inode.foldl
    (fun q e =>
      if e.2.length < 2 then q
      else
        match e.2 with
        | [] => q
        | i0 :: rest => rest.foldl (fun q2 i => ufUnion q2 i0 i) q)
    par

/-- Body of the component-collection loop (lines 522-526): find the
root of `idx` (mutating the parent array) and append the folder name
under that root, creating the component on first sight. -/
def compStep (names : List String) (st : List Nat × List (Nat × List String))
    (idx : Nat) : List Nat × List (Nat × List String) :=
  let f := ufFind st.1.length st.1 idx
  let nm := names.getD idx ""
  if (st.2.find? (fun e => e.1 = f.2)).isSome then
    (f.1, st.2.map (fun e => if e.1 = f.2 then (e.1, e.2 ++ [nm]) else e))
  else (f.1, st.2 ++ [(f.2, [nm])])

/-- The `components` dict of lines 521-526: keys in first-seen-root
order, folder names in index order. -/
def buildComponents (par : List Nat) (names : List String) :
    List (Nat × List String) :=
  ((List.range names.length).foldl (compStep names) (par, [])).2

/-- Python set equality of two folder-name lists, as used by
`folder_set in existing_sets` (line 540). -/
def sameSet (l₁ l₂ : List String) : Bool :=
  l₁.all (fun x => l₂.contains x) && l₂.all (fun x => l₁.contains x)

/-- Body of the final group-collection loop (lines 535-543). -/
def groupStep (registry : List (List String)) (acc : List (List String))
    (e : Nat × List String) : List (List String) :=
  if e.2.length < 2 then acc
  else if registry.any (fun s => sameSet e.2 s) then acc
  else acc ++ [e.2]

/-- `scan_for_mirrors` after the `isdir` filter: fewer than two folders
yield nothing; otherwise build the identity map, union folders sharing
an identity, and return every component of size at least 2 whose folder
set is not already registered, in first-seen order. -/
def scanForMirrors (registry : List (List String))
    (folders : List (String × List FileId)) : List (List String) :=
  if folders.length < 2 then []
  else
    let inode := buildInode (folders.map Prod.snd)
    let par := applyUnions inode (List.range folders.length)
    let comps := buildComponents par (folders.map Prod.fst)
    comps.foldl (groupStep registry) []

/-- Lookup of an identity's index list in the model's
`inode_to_folders`. -/
def idxOf (m : List (FileId × List Nat)) (k : FileId) : List Nat :=
  ((m.find? (fun e => e.1 = k)).map Prod.snd).getD []

/-- One application of the parent map, roots fixed. -/
def pstep (par : List Nat) (x : Nat) : Nat := par.getD x x

/-- Well-formed three-folder parent array: length three, entries below
three, and iterating the parent map stabilises (no cycle), which every
array reachable from `list(range(3))` satisfies. -/
def valid3 (par : List Nat) : Bool :=
  par.length == 3 && par.all (fun v => decide (v < 3)) &&
    (List.range 3).all (fun x =>
      pstep par (pstep par (pstep par x)) ==
        pstep par (pstep par (pstep par (pstep par x))))

/-! ## Model for the debounced watcher of `core/watcher.py` (claim C8)

Claim C8 concerns the per-path debounce of `_DebouncedHandler`: the
model tracks one watched path's entry of the `_pending` dict (its
scheduled due time, if any), the live timer (the absolute time it will
fire, if one is alive), and the times at which a sync action ran.
Times are rationals; `debounce_seconds` is `D`; the 0.05-second minimum
reschedule delay of line 149 is `1/20`. -/

structure WatchState where
  pending : Option ℚ
  timer : Option ℚ
  fired : List ℚ
  deriving DecidableEq

/-- `on_created` for the watched path at time `t` (lines 50-56): set the
path's due time to `t + debounce_seconds` and, only if no timer is
alive, start one firing `debounce_seconds` later. -/
def onCreated (D : ℚ) (st : WatchState) (t : ℚ) : WatchState :=
  ⟨some (t + D),
    match st.timer with
    | some τ => some τ
    | none => some (t + D),
    st.fired⟩

/-- `_flush` running at time `now` (lines 131-170): if the path's due
time has been reached, sync it and clear the timer; if not, reschedule
the timer `max(due - now, 0.05)` later; with nothing pending, clear the
timer. -/
def flush (st : WatchState) (now : ℚ) : WatchState :=
  match st.pending with
  | none => ⟨st.pending, none, st.fired⟩
  | some sched =>
    if sched ≤ now then ⟨none, none, st.fired ++ [now]⟩
    else ⟨st.pending, some (now + max (sched - now) (1 / 20)), st.fired⟩

/-- Discrete-event driver: deliver the remaining create events and
timer fires in time order (timer first on a tie), with fuel bounding
the number of events. -/
def runWatch (D : ℚ) : Nat → WatchState → List ℚ → WatchState
  | 0, st, _ => st
  | fuel + 1, st, creates =>
    match st.timer, creates with
    | none, [] => st
    | none, t :: rest => runWatch D fuel (onCreated D st t) rest
    | some τ, [] => runWatch D fuel (flush st τ) []
    | some τ, t :: rest =>
      if τ ≤ t then runWatch D fuel (flush st τ) (t :: rest)
      else runWatch D fuel (onCreated D st t) rest

/-- The claim's arrival pattern: each create strictly after the
previous one and less than `debounce_seconds` later. -/
def gapsOK (D : ℚ) : ℚ → List ℚ → Bool
  | _, [] => true
  | t, s :: ss => decide (t < s) && decide (s < t + D) && gapsOK D s ss

/-! ## Helper lemmas about the sync model -/

theorem getLast?_drop_of_lt {α : Type} (l : List α) (n : Nat) (h : n < l.length) :
    (l.drop n).getLast? = l.getLast? := by
  induction l generalizing n with
  | nil => simp at h
  | cons a t ih =>
    cases n with
    | zero => simp
    | succ m =>
      simp only [List.drop_succ_cons]
      rw [ih m (by simpa using Nat.lt_of_succ_lt_succ h)]
      rcases t with _ | ⟨b, t'⟩
      · simp at h
      · simp [List.getLast?_cons_cons]

theorem extends_refl (fs : SyncFS) : fs.Extends fs :=
  ⟨⟨[], by simp⟩, ⟨[], by simp⟩, rfl⟩

theorem extends_trans {fs₁ fs₂ fs₃ : SyncFS} (h₁ : fs₁.Extends fs₂)
    (h₂ : fs₂.Extends fs₃) : fs₁.Extends fs₃ := by
  obtain ⟨⟨e₁, he₁⟩, ⟨d₁, hd₁⟩, hr₁⟩ := h₁
  obtain ⟨⟨e₂, he₂⟩, ⟨d₂, hd₂⟩, hr₂⟩ := h₂
  exact ⟨⟨e₁ ++ e₂, by simp [he₂, he₁]⟩, ⟨d₁ ++ d₂, by simp [hd₂, hd₁]⟩,
    hr₂.trans hr₁⟩

theorem statFile_mono {fs fs' : SyncFS} (h : fs.Extends fs') {p : Path}
    {i : FileId} (hi : fs.statFile p = some i) : fs'.statFile p = some i := by
  obtain ⟨⟨e, he⟩, -, -⟩ := h
  unfold SyncFS.statFile at hi ⊢
  rw [he, List.find?_append]
  cases hf : fs.files.find? (fun x => x.1 = p) with
  | none => rw [hf] at hi; simp at hi
  | some v => rw [hf] at hi; simpa [Option.or] using hi

theorem isDir_mono {fs fs' : SyncFS} (h : fs.Extends fs') {p : Path}
    (hp : fs.isDir p = true) : fs'.isDir p = true := by
  obtain ⟨-, ⟨d, hd⟩, -⟩ := h
  unfold SyncFS.isDir at hp ⊢
  rw [hd, List.find?_append]
  rcases Bool.or_eq_true_iff.mp hp with h1 | h2
  · simp [h1]
  · cases hf : fs.dirs.find? (fun x => x.1 = p) with
    | none => rw [hf] at h2; simp at h2
    | some v => simp [hf, Option.or]

theorem dirDev_mono {fs fs' : SyncFS} (h : fs.Extends fs') {p : Path}
    {v : Nat} (hp : fs.dirDev p = some v) : fs'.dirDev p = some v := by
  obtain ⟨-, ⟨d, hd⟩, hr⟩ := h
  unfold SyncFS.dirDev at hp ⊢
  by_cases hpe : p = []
  · simpa [hpe, hr] using hp
  · simp only [if_neg hpe] at hp ⊢
    rw [hd, List.find?_append]
    cases hf : fs.dirs.find? (fun x => x.1 = p) with
    | none => rw [hf] at hp; simp at hp
    | some v' => rw [hf] at hp; simpa [Option.or] using hp

theorem pathExists_mono {fs fs' : SyncFS} (h : fs.Extends fs') {p : Path}
    (hp : fs.pathExists p = true) : fs'.pathExists p = true := by
  unfold SyncFS.pathExists at hp ⊢
  rcases Bool.or_eq_true_iff.mp hp with h1 | h2
  · rcases hs : fs.statFile p with - | i
    · rw [hs] at h1; simp at h1
    · simp [statFile_mono h hs]
  · simp [isDir_mono h h2]

theorem extends_addDirs (fs : SyncFS) (l : List (Path × Nat)) :
    fs.Extends { fs with dirs := fs.dirs ++ l } :=
  ⟨⟨[], by simp⟩, ⟨l, rfl⟩, rfl⟩

theorem extends_addFiles (fs : SyncFS) (l : List (Path × FileId)) :
    fs.Extends { fs with files := fs.files ++ l } :=
  ⟨⟨l, rfl⟩, ⟨[], by simp⟩, rfl⟩

theorem makedirsGo_ok_extends {fs : SyncFS} {d : Path} {n : Nat} {fs' : SyncFS}
    (h : makedirsGo fs d n = .ok fs') :
    fs'.files = fs.files ∧ fs.Extends fs' := by
  induction n generalizing fs' with
  | zero =>
    unfold makedirsGo at h
    cases h
    exact ⟨rfl, extends_refl fs⟩
  | succ m ih =>
    unfold makedirsGo at h
    cases hrec : makedirsGo fs d m with
    | error e => rw [hrec] at h; simp [Bind.bind, Except.bind] at h
    | ok fs₁ =>
      rw [hrec] at h
      obtain ⟨hf₁, hext₁⟩ := ih hrec
      simp only [Bind.bind, Except.bind] at h
      by_cases hstat : (fs₁.statFile (d.take (m + 1))).isSome
      · simp [hstat] at h
      · simp only [hstat, if_false, Bool.false_eq_true] at h
        by_cases hdir : fs₁.isDir (d.take (m + 1)) = true
        · simp only [hdir, if_true] at h
          cases h
          exact ⟨hf₁, hext₁⟩
        · simp only [hdir, if_false, Bool.false_eq_true] at h
          cases h
          exact ⟨hf₁, extends_trans hext₁ (extends_addDirs fs₁ _)⟩

theorem makedirs_ok_extends {fs : SyncFS} {d : Path} {fs' : SyncFS}
    (h : makedirs fs d = .ok fs') : fs'.files = fs.files ∧ fs.Extends fs' :=
  makedirsGo_ok_extends h

theorem makedirsGo_ok_isDir {fs : SyncFS} {d : Path} {n : Nat} {fs' : SyncFS}
    (h : makedirsGo fs d n = .ok fs') :
    ∀ i ≤ n, fs'.isDir (d.take i) = true := by
  induction n generalizing fs' with
  | zero =>
    unfold makedirsGo at h
    cases h
    intro i hi
    interval_cases i
    simp [SyncFS.isDir]
  | succ m ih =>
    unfold makedirsGo at h
    cases hrec : makedirsGo fs d m with
    | error e => rw [hrec] at h; simp [Bind.bind, Except.bind] at h
    | ok fs₁ =>
      rw [hrec] at h
      simp only [Bind.bind, Except.bind] at h
      by_cases hstat : (fs₁.statFile (d.take (m + 1))).isSome
      · simp [hstat] at h
      · simp only [hstat, if_false, Bool.false_eq_true] at h
        by_cases hdir : fs₁.isDir (d.take (m + 1)) = true
        · simp only [hdir, if_true] at h
          cases h
          intro i hi
          rcases Nat.lt_or_ge i (m + 1) with hlt | hge
          · exact ih hrec i (Nat.lt_succ_iff.mp hlt)
          · have : i = m + 1 := Nat.le_antisymm hi hge
            subst this; exact hdir
        · simp only [hdir, if_false, Bool.false_eq_true] at h
          cases h
          intro i hi
          have hext := extends_addDirs fs₁
            [(d.take (m + 1), (fs₁.dirDev (d.take (m + 1)).dropLast).getD fs₁.rootDev)]
          rcases Nat.lt_or_ge i (m + 1) with hlt | hge
          · exact isDir_mono hext (ih hrec i (Nat.lt_succ_iff.mp hlt))
          · have : i = m + 1 := Nat.le_antisymm hi hge
            subst this
            unfold SyncFS.isDir
            rw [List.find?_append]
            cases hf : fs₁.dirs.find? (fun e => e.1 = d.take (m + 1)) <;>
              simp [hf, Option.or]

theorem makedirs_ok_isDir {fs : SyncFS} {d : Path} {fs' : SyncFS}
    (h : makedirs fs d = .ok fs') :
    ∀ i ≤ d.length, fs'.isDir (d.take i) = true :=
  makedirsGo_ok_isDir h

theorem makedirsGo_id {fs : SyncFS} {d : Path} {n : Nat}
    (hdir : ∀ i ≤ n, fs.isDir (d.take i) = true)
    (hfile : ∀ i ≤ n, fs.statFile (d.take i) = none) :
    makedirsGo fs d n = .ok fs := by
  induction n with
  | zero => rfl
  | succ m ih =>
    unfold makedirsGo
    rw [ih (fun i hi => hdir i (Nat.le_succ_of_le hi))
        (fun i hi => hfile i (Nat.le_succ_of_le hi))]
    simp [Bind.bind, Except.bind, hfile (m + 1) (Nat.le_refl _),
      hdir (m + 1) (Nat.le_refl _)]

theorem createHardlinkSync_ok_spec {fs : SyncFS} {src dd : Path} {name : String}
    {fs' : SyncFS} {dp : Path}
    (h : createHardlinkSync fs src dd name = .ok (fs', dp)) :
    ∃ i, fs.statFile src = some i ∧ dp = dd ++ [name] ∧
      fs'.files = fs.files ++ [(dp, i)] ∧ fs'.dirs = fs.dirs ∧
      fs'.rootDev = fs.rootDev ∧ fs.pathExists dp = false ∧
      fs.isDir dd = true ∧ fs.dirDev dd = some i.dev := by
  unfold createHardlinkSync at h
  cases hstat : fs.statFile src with
  | none => rw [hstat] at h; dsimp only at h; split at h <;> simp at h
  | some i =>
    rw [hstat] at h
    dsimp only at h
    by_cases hdd : fs.isDir dd = true
    · rw [if_neg (by simp [hdd])] at h
      by_cases hdev : fs.dirDev dd = some i.dev
      · rw [if_neg (by simp [hdev])] at h
        by_cases hex : fs.pathExists (dd ++ [name]) = true
        · simp [hex] at h
        · rw [if_neg (by simp_all)] at h
          cases h
          exact ⟨i, rfl, rfl, rfl, rfl, rfl, by simpa using hex, hdd, hdev⟩
      · rw [if_pos (by simp [hdev])] at h
        simp at h
    · rw [if_pos (by simp_all)] at h
      simp at h

theorem createHardlinkSync_err_dirs {fs : SyncFS} {src dd : Path}
    {name : String} {e : HardlinkErr}
    (h : createHardlinkSync fs src dd name = .error e) :
    (fs.statFile src).isNone ∨ fs.isDir dd = false ∨
      fs.dirDev dd ≠ (fs.statFile src).map (·.dev) ∨
      fs.pathExists (dd ++ [name]) = true := by
  unfold createHardlinkSync at h
  cases hstat : fs.statFile src with
  | none => exact Or.inl (by simp [hstat])
  | some i =>
    rw [hstat] at h
    dsimp only at h
    by_cases hdd : fs.isDir dd = true
    · rw [if_neg (by simp [hdd])] at h
      by_cases hdev : fs.dirDev dd = some i.dev
      · rw [if_neg (by simp [hdev])] at h
        by_cases hex : fs.pathExists (dd ++ [name]) = true
        · exact Or.inr (Or.inr (Or.inr hex))
        · rw [if_neg (by simp_all)] at h
          simp at h
      · exact Or.inr (Or.inr (Or.inl (by simp [hstat, hdev])))
    · exact Or.inr (Or.inl (by simpa using hdd))

theorem linkIntoFolder_ok_cases {key : FileId} {src rel : Path}
    {st : SyncFS × List (Path × Path)} {folder : Path}
    {st' : SyncFS × List (Path × Path)}
    (h : linkIntoFolder key src rel st folder = .ok st') :
    (st.1.pathExists (folder ++ rel) = true ∧ st' = st) ∨
    (st.1.pathExists (folder ++ rel) = false ∧
      ∃ fs2, makedirs st.1 (folder ++ rel).dropLast = .ok fs2 ∧
        ((∃ fs3 dp,
            createHardlinkSync fs2 src (folder ++ rel).dropLast
              ((rel.getLast?).getD "") = .ok (fs3, dp) ∧
            st' = (fs3, st.2 ++ [(dp, src)])) ∨
         (∃ e,
            createHardlinkSync fs2 src (folder ++ rel).dropLast
              ((rel.getLast?).getD "") = .error e ∧
            st' = (fs2, st.2)))) := by
  unfold linkIntoFolder at h
  by_cases hex : st.1.pathExists (folder ++ rel) = true
  · rw [if_pos hex] at h
    cases h
    exact Or.inl ⟨hex, rfl⟩
  · rw [if_neg hex] at h
    refine Or.inr ⟨by simpa using hex, ?_⟩
    cases hmk : makedirs st.1 (folder ++ rel).dropLast with
    | error e => rw [hmk] at h; simp [Bind.bind, Except.bind] at h
    | ok fs2 =>
      rw [hmk] at h
      simp only [Bind.bind, Except.bind] at h
      refine ⟨fs2, rfl, ?_⟩
      cases hch : createHardlinkSync fs2 src (folder ++ rel).dropLast
          ((rel.getLast?).getD "") with
      | error e =>
        rw [hch] at h
        cases h
        exact Or.inr ⟨e, rfl, rfl⟩
      | ok pr =>
        rw [hch] at h
        cases h
        exact Or.inl ⟨pr.1, pr.2, by simp, rfl⟩

theorem linkIntoFolder_err {key : FileId} {src rel : Path}
    {st : SyncFS × List (Path × Path)} {folder : Path} {u : Unit}
    (h : linkIntoFolder key src rel st folder = .error u) :
    st.1.pathExists (folder ++ rel) = false ∧
      makedirs st.1 (folder ++ rel).dropLast = .error () := by
  unfold linkIntoFolder at h
  by_cases hex : st.1.pathExists (folder ++ rel) = true
  · rw [if_pos hex] at h; simp at h
  · rw [if_neg hex] at h
    refine ⟨by simpa using hex, ?_⟩
    cases hmk : makedirs st.1 (folder ++ rel).dropLast with
    | error e => rfl
    | ok fs2 =>
      rw [hmk] at h
      simp only [Bind.bind, Except.bind] at h
      cases hch : createHardlinkSync fs2 src (folder ++ rel).dropLast
          ((rel.getLast?).getD "") with
      | error e => rw [hch] at h; simp at h
      | ok pr => rw [hch] at h; simp at h

/-- Monotonicity of one linking step: the filesystem only grows, and the
created list gains at most the one pair
`((folder ++ rel).dropLast ++ [basename rel], src)`. -/
theorem linkIntoFolder_mono {key : FileId} {src rel : Path}
    {st : SyncFS × List (Path × Path)} {folder : Path}
    {st' : SyncFS × List (Path × Path)}
    (h : linkIntoFolder key src rel st folder = .ok st') :
    st.1.Extends st'.1 ∧ ∃ ext, st'.2 = st.2 ++ ext ∧
      ∀ pr ∈ ext,
        pr = ((folder ++ rel).dropLast ++ [(rel.getLast?).getD ""], src) := by
  rcases linkIntoFolder_ok_cases h with ⟨-, rfl⟩ | ⟨-, fs2, hmk, hrest⟩
  · exact ⟨extends_refl _, [], by simp, by simp⟩
  · obtain ⟨hfeq, hext⟩ := makedirs_ok_extends hmk
    rcases hrest with ⟨fs3, dp, hch, rfl⟩ | ⟨e, hch, rfl⟩
    · obtain ⟨i, -, hdp, hfiles, hdirs, hroot, -, -, -⟩ :=
        createHardlinkSync_ok_spec hch
      refine ⟨extends_trans hext ?_, [(dp, src)], rfl, ?_⟩
      · exact ⟨⟨[(dp, i)], hfiles⟩, ⟨[], by simp [hdirs]⟩, hroot⟩
      · intro pr hpr
        simp only [List.mem_singleton] at hpr
        subst hpr
        rw [hdp]
    · exact ⟨hext, [], by simp, by simp⟩

theorem linkEverywhere_mono {key : FileId} {src rel : Path}
    {st st' : SyncFS × List (Path × Path)} {folders : List Path}
    (h : linkEverywhere key src rel st folders = .ok st') :
    st.1.Extends st'.1 ∧ ∃ ext, st'.2 = st.2 ++ ext ∧
      ∀ pr ∈ ext, ∃ folder ∈ folders,
        pr = ((folder ++ rel).dropLast ++ [(rel.getLast?).getD ""], src) := by
  induction folders generalizing st with
  | nil =>
    unfold linkEverywhere at h
    cases h
    exact ⟨extends_refl _, [], by simp, by simp⟩
  | cons f rest ih =>
    unfold linkEverywhere at h
    cases hstep : linkIntoFolder key src rel st f with
    | error e => rw [hstep] at h; simp [Bind.bind, Except.bind] at h
    | ok st₁ =>
      rw [hstep] at h
      simp only [Bind.bind, Except.bind] at h
      obtain ⟨hx₁, e₁, he₁, hall₁⟩ := linkIntoFolder_mono hstep
      obtain ⟨hx₂, e₂, he₂, hall₂⟩ := ih h
      refine ⟨extends_trans hx₁ hx₂, e₁ ++ e₂, by simp [he₂, he₁], ?_⟩
      intro pr hpr
      rcases List.mem_append.mp hpr with h1 | h2
      · exact ⟨f, by simp, hall₁ pr h1⟩
      · obtain ⟨folder, hfm, hfe⟩ := hall₂ pr h2
        exact ⟨folder, by simp [hfm], hfe⟩

theorem linkAllEntries_mono {folders : List Path}
    {st st' : SyncFS × List (Path × Path)} {entries : List InvEntry}
    (h : linkAllEntries folders st entries = .ok st') :
    st.1.Extends st'.1 ∧ ∃ ext, st'.2 = st.2 ++ ext ∧
      ∀ pr ∈ ext, ∃ e ∈ entries, ∃ folder ∈ folders,
        pr = ((folder ++ e.rel).dropLast ++ [(e.rel.getLast?).getD ""], e.src) := by
  induction entries generalizing st with
  | nil =>
    unfold linkAllEntries at h
    cases h
    exact ⟨extends_refl _, [], by simp, by simp⟩
  | cons e rest ih =>
    unfold linkAllEntries at h
    cases hstep : linkEverywhere e.key e.src e.rel st folders with
    | error u => rw [hstep] at h; simp [Bind.bind, Except.bind] at h
    | ok st₁ =>
      rw [hstep] at h
      simp only [Bind.bind, Except.bind] at h
      obtain ⟨hx₁, e₁, he₁, hall₁⟩ := linkEverywhere_mono hstep
      obtain ⟨hx₂, e₂, he₂, hall₂⟩ := ih h
      refine ⟨extends_trans hx₁ hx₂, e₁ ++ e₂, by simp [he₂, he₁], ?_⟩
      intro pr hpr
      rcases List.mem_append.mp hpr with h1 | h2
      · obtain ⟨folder, hfm, hfe⟩ := hall₁ pr h1
        exact ⟨e, by simp, folder, hfm, hfe⟩
      · obtain ⟨e', hem, folder, hfm, hfe⟩ := hall₂ pr h2
        exact ⟨e', by simp [hem], folder, hfm, hfe⟩

theorem foldl_addInv_mem {l : List (Path × Path × FileId)}
    {acc : List InvEntry} {e : InvEntry}
    (h : e ∈ l.foldl (fun a p => addInv a p.1 p.2) acc) :
    e ∈ acc ∨ ∃ p ∈ l, e = ⟨p.2.2, p.2.1, relOf p.1 p.2.1⟩ := by
  induction l generalizing acc with
  | nil => exact Or.inl (by simpa using h)
  | cons q rest ih =>
    simp only [List.foldl_cons] at h
    rcases ih h with hacc | ⟨p, hp, he⟩
    · unfold addInv at hacc
      split at hacc
      · exact Or.inl hacc
      · rcases List.mem_append.mp hacc with h1 | h2
        · exact Or.inl h1
        · simp only [List.mem_singleton] at h2
          exact Or.inr ⟨q, by simp, h2⟩
    · exact Or.inr ⟨p, by simp [hp], he⟩

theorem walkEntries_mem {fs : SyncFS} {g : MirrorGroup}
    {p : Path × Path × FileId} (h : p ∈ walkEntries fs g) :
    p.1 ∈ g.folders ∧ fs.isDir p.1 = true ∧ (p.2.1, p.2.2) ∈ fs.files ∧
      underFolder p.1 p.2.1 = true ∧ p.2.1.getLast? ≠ some MIRROR_MARKER := by
  unfold walkEntries at h
  rw [List.mem_flatMap] at h
  obtain ⟨folder, hfm, hin⟩ := h
  by_cases hdir : fs.isDir folder = true
  · rw [if_pos hdir] at hin
    rw [List.mem_map] at hin
    obtain ⟨e, he, rfl⟩ := hin
    unfold walkFolder at he
    rw [List.mem_filter] at he
    obtain ⟨hmem, hcond⟩ := he
    simp only [Bool.and_eq_true, decide_eq_true_eq] at hcond
    exact ⟨hfm, hdir, hmem, hcond.1, hcond.2⟩
  · rw [if_neg hdir] at hin
    simp at hin

/-- Every `unique_files` entry comes from a real walked file: it lives
under a valid member folder, its recorded relative path is the genuine
relative path, and it is not a marker file. -/
theorem inventory_mem {fs : SyncFS} {g : MirrorGroup} {e : InvEntry}
    (h : e ∈ inventory fs g) :
    ∃ folder ∈ g.folders, fs.isDir folder = true ∧ (e.src, e.key) ∈ fs.files ∧
      underFolder folder e.src = true ∧ e.src.getLast? ≠ some MIRROR_MARKER ∧
      e.rel = relOf folder e.src := by
  unfold inventory at h
  rcases foldl_addInv_mem h with hacc | ⟨p, hp, rfl⟩
  · simp at hacc
  · obtain ⟨h1, h2, h3, h4, h5⟩ := walkEntries_mem hp
    exact ⟨p.1, h1, h2, h3, h4, h5, rfl⟩

theorem underFolder_rel_ne_nil {folder p : Path}
    (h : underFolder folder p = true) : relOf folder p ≠ [] := by
  unfold underFolder at h
  simp only [Bool.and_eq_true, decide_eq_true_eq] at h
  obtain ⟨-, hlt⟩ := h
  unfold relOf
  intro hc
  have hlen := List.length_drop folder.length p
  rw [hc] at hlen
  simp only [List.length_nil] at hlen
  omega

theorem underFolder_rel_getLast {folder p : Path}
    (h : underFolder folder p = true) :
    (relOf folder p).getLast? = p.getLast? := by
  unfold underFolder at h
  simp only [Bool.and_eq_true, decide_eq_true_eq] at h
  exact getLast?_drop_of_lt p folder.length h.2

theorem underFolder_append {folder p : Path}
    (h : underFolder folder p = true) : folder ++ relOf folder p = p := by
  unfold underFolder at h
  simp only [Bool.and_eq_true, decide_eq_true_eq] at h
  obtain ⟨t, rfl⟩ := List.isPrefixOf_iff_prefix.mp h.1
  unfold relOf
  rw [List.drop_left]

theorem syncFileFolders_mono {root : Path} {key : FileId} {src rel : Path}
    {st st' : SyncFS × List (Path × Path)} {folders : List Path}
    (h : syncFileFolders root key src rel st folders = .ok st') :
    st.1.Extends st'.1 ∧ ∃ ext, st'.2 = st.2 ++ ext ∧
      ∀ pr ∈ ext, ∃ folder ∈ folders,
        pr = ((folder ++ rel).dropLast ++ [(rel.getLast?).getD ""], src) := by
  induction folders generalizing st with
  | nil =>
    unfold syncFileFolders at h
    cases h
    exact ⟨extends_refl _, [], by simp, by simp⟩
  | cons f rest ih =>
    unfold syncFileFolders at h
    by_cases hroot : f = root
    · rw [if_pos hroot] at h
      simp only [Bind.bind, Except.bind] at h
      obtain ⟨hx₂, e₂, he₂, hall₂⟩ := ih h
      refine ⟨hx₂, e₂, he₂, ?_⟩
      intro pr hpr
      obtain ⟨folder, hfm, hfe⟩ := hall₂ pr hpr
      exact ⟨folder, by simp [hfm], hfe⟩
    · rw [if_neg hroot] at h
      simp only [Bind.bind, Except.bind] at h
      cases hstep : linkIntoFolder key src rel st f with
      | error e => rw [hstep] at h; simp at h
      | ok st₁ =>
        rw [hstep] at h
        obtain ⟨hx₁, e₁, he₁, hall₁⟩ := linkIntoFolder_mono hstep
        obtain ⟨hx₂, e₂, he₂, hall₂⟩ := ih h
        refine ⟨extends_trans hx₁ hx₂, e₁ ++ e₂, by simp [he₂, he₁], ?_⟩
        intro pr hpr
        rcases List.mem_append.mp hpr with h1 | h2
        · exact ⟨f, by simp, hall₁ pr h1⟩
        · obtain ⟨folder, hfm, hfe⟩ := hall₂ pr h2
          exact ⟨folder, by simp [hfm], hfe⟩

/-! ## Claim C1 -/

/-- Claim C1, counterexample.  The claim asserts manifest-based deletion
propagation: a relative path recorded as previously synced that is
present in some but not all member folders must be deleted everywhere,
dropped from the manifest, and reported in a deleted-paths list.
`sync_group` in `core/sync.py` keeps no manifest and deletes nothing:
here `p` is present in folder `a` and absent from folder `b` at the
start of the pass (so whatever the persisted manifest holds, a deletion
pass would have to remove `a/p`), yet after the pass `a/p` still exists
and `p` has been hardlinked into `b` instead, and the returned value
carries only the created mapping. -/
theorem C1_counterexample :
    syncGroup ⟨[(["a", "p"], ⟨0, 1⟩)], [(["a"], 0), (["b"], 0)], 0⟩
        ⟨[["a"], ["b"]], true⟩ =
      .ok (⟨[(["a", "p"], ⟨0, 1⟩), (["b", "p"], ⟨0, 1⟩)],
             [(["a"], 0), (["b"], 0)], 0⟩,
           [(["b", "p"], ["a", "p"])]) ∧
    SyncFS.statFile ⟨[(["a", "p"], ⟨0, 1⟩), (["b", "p"], ⟨0, 1⟩)],
        [(["a"], 0), (["b"], 0)], 0⟩ ["a", "p"] = some ⟨0, 1⟩ ∧
    [(["b", "p"], ["a", "p"])] ≠ ([] : List (Path × Path)) := by
  refine ⟨?_, by decide, by decide⟩
  rfl

/-- Claim C1 (amended): `sync_group` maintains no persisted manifest and
never deletes: every file and directory entry present at the start of a
pass is still present (in order) at its end, paths present in some but
not all member folders are treated as additions, and the returned value
is only the created-links mapping — there is no deleted-paths list. -/
theorem C1_amended {fs : SyncFS} {g : MirrorGroup} {fs' : SyncFS}
    {created : List (Path × Path)}
    (h : syncGroup fs g = .ok (fs', created)) :
    (∃ newFiles, fs'.files = fs.files ++ newFiles) ∧
    (∃ newDirs, fs'.dirs = fs.dirs ++ newDirs) ∧
    fs'.rootDev = fs.rootDev := by
  unfold syncGroup at h
  split at h
  · cases h
    exact ⟨⟨[], by simp⟩, ⟨[], by simp⟩, rfl⟩
  · exact (linkAllEntries_mono h).1

theorem C1_amended_witness :
    (∃ newFiles,
      (⟨[(["a", "p"], ⟨0, 1⟩), (["b", "p"], ⟨0, 1⟩)],
         [(["a"], 0), (["b"], 0)], 0⟩ : SyncFS).files =
        (⟨[(["a", "p"], ⟨0, 1⟩)], [(["a"], 0), (["b"], 0)], 0⟩ : SyncFS).files
          ++ newFiles) ∧
    (∃ newDirs,
      (⟨[(["a", "p"], ⟨0, 1⟩), (["b", "p"], ⟨0, 1⟩)],
         [(["a"], 0), (["b"], 0)], 0⟩ : SyncFS).dirs =
        (⟨[(["a", "p"], ⟨0, 1⟩)], [(["a"], 0), (["b"], 0)], 0⟩ : SyncFS).dirs
          ++ newDirs) ∧
    (⟨[(["a", "p"], ⟨0, 1⟩), (["b", "p"], ⟨0, 1⟩)],
       [(["a"], 0), (["b"], 0)], 0⟩ : SyncFS).rootDev =
      (⟨[(["a", "p"], ⟨0, 1⟩)], [(["a"], 0), (["b"], 0)], 0⟩ : SyncFS).rootDev :=
  @C1_amended ⟨[(["a", "p"], ⟨0, 1⟩)], [(["a"], 0), (["b"], 0)], 0⟩
    ⟨[["a"], ["b"]], true⟩
    ⟨[(["a", "p"], ⟨0, 1⟩), (["b", "p"], ⟨0, 1⟩)], [(["a"], 0), (["b"], 0)], 0⟩
    [(["b", "p"], ["a", "p"])] (by rfl)

/-! ## Claim C4 -/

/-- Claim C4, counterexample.  The claim requires at least 2 existing,
readable member folders, with fewer making `sync_group` a no-op.  The
code only checks `len(group.folders) < 2`: here the group lists two
folders but only `a` exists, yet the pass is not a no-op — it re-creates
the missing folder `b` (via `os.makedirs`) and links `a/p` into it. -/
theorem C4_counterexample :
    SyncFS.isDir ⟨[(["a", "p"], ⟨0, 1⟩)], [(["a"], 0)], 0⟩ ["a"] = true ∧
    SyncFS.isDir ⟨[(["a", "p"], ⟨0, 1⟩)], [(["a"], 0)], 0⟩ ["b"] = false ∧
    syncGroup ⟨[(["a", "p"], ⟨0, 1⟩)], [(["a"], 0)], 0⟩ ⟨[["a"], ["b"]], true⟩ =
      .ok (⟨[(["a", "p"], ⟨0, 1⟩), (["b", "p"], ⟨0, 1⟩)],
             [(["a"], 0), (["b"], 0)], 0⟩,
           [(["b", "p"], ["a", "p"])]) ∧
    [(["b", "p"], ["a", "p"])] ≠ ([] : List (Path × Path)) := by
  refine ⟨by decide, by decide, ?_, by decide⟩
  rfl

/-- Claim C4 (amended): the no-op guard of `sync_group` counts the
listed member folders, not the existing readable ones: with fewer than 2
listed folders the pass returns immediately with no filesystem change
and an empty result; member folders that do not exist are merely skipped
during inventory and are re-created and populated during the creation
phase. -/
theorem C4_amended {fs : SyncFS} {g : MirrorGroup}
    (h : g.folders.length < 2) : syncGroup fs g = .ok (fs, []) := by
  unfold syncGroup
  rw [if_pos h]

theorem C4_amended_witness :
    syncGroup ⟨[(["a", "p"], ⟨0, 1⟩)], [(["a"], 0)], 0⟩ ⟨[["a"]], true⟩ =
      .ok (⟨[(["a", "p"], ⟨0, 1⟩)], [(["a"], 0)], 0⟩, []) :=
  C4_amended (by decide)

/-! ## Claim C10 -/

/-- Claim C10: a source path that neither equals nor lies under any
member folder makes `sync_file_to_group` return the empty list with no
filesystem change (`_find_root_folder` returns `None`). -/
theorem C10_outside_source_noop {fs : SyncFS} {src : Path} {g : MirrorGroup}
    (h : ∀ folder ∈ g.folders, folder ≠ src ∧ underFolder folder src = false) :
    syncFileToGroup fs src g = .ok (fs, []) := by
  unfold syncFileToGroup
  by_cases hm : src.getLast? = some MIRROR_MARKER
  · rw [if_pos hm]
  · rw [if_neg hm]
    have hnone : findRootFolder src g = none := by
      unfold findRootFolder
      rw [List.find?_eq_none]
      intro folder hf
      obtain ⟨h1, h2⟩ := h folder hf
      simp [h1, h2]
    rw [hnone]

theorem C10_outside_source_noop_witness :
    syncFileToGroup ⟨[(["b", "x"], ⟨0, 5⟩)], [(["a"], 0), (["b"], 0)], 0⟩
        ["b", "x"] ⟨[["a"]], true⟩ =
      .ok (⟨[(["b", "x"], ⟨0, 5⟩)], [(["a"], 0), (["b"], 0)], 0⟩, []) :=
  C10_outside_source_noop (by decide)

/-! ## Claim C9 -/

theorem inventory_rel_not_marker {fs : SyncFS} {g : MirrorGroup} {e : InvEntry}
    (h : e ∈ inventory fs g) :
    e.rel ≠ [] ∧ e.rel.getLast? ≠ some MIRROR_MARKER := by
  obtain ⟨folder, -, -, -, hunder, hmark, hrel⟩ := inventory_mem h
  rw [hrel]
  exact ⟨underFolder_rel_ne_nil hunder,
    by rw [underFolder_rel_getLast hunder]; exact hmark⟩

/-- Claim C9: marker files are never propagated.  The `unique_files`
inventory of `sync_group` never records a path whose basename is the
marker filename; no created link of `sync_group` is marker-named; and no
created link of `sync_file_to_group` is marker-named (its first check
returns early when the source basename is the marker). -/
theorem C9_marker_never_propagated :
    (∀ fs g, ∀ e ∈ inventory fs g, e.rel.getLast? ≠ some MIRROR_MARKER) ∧
    (∀ fs g fs' created, syncGroup fs g = .ok (fs', created) →
      ∀ pr ∈ created, pr.1.getLast? ≠ some MIRROR_MARKER) ∧
    (∀ fs src g fs' created, syncFileToGroup fs src g = .ok (fs', created) →
      ∀ p ∈ created, p.getLast? ≠ some MIRROR_MARKER) := by
  refine ⟨fun fs g e he => (inventory_rel_not_marker he).2, ?_, ?_⟩
  · intro fs g fs' created h pr hpr
    unfold syncGroup at h
    split at h
    · cases h; simp at hpr
    · obtain ⟨-, ext, hext, hall⟩ := linkAllEntries_mono h
      simp only [List.nil_append] at hext
      subst hext
      obtain ⟨e, hem, folder, -, hpe⟩ := hall pr hpr
      subst hpe
      obtain ⟨hnil, hmark⟩ := inventory_rel_not_marker hem
      rw [List.getLast?_concat]
      cases hl : e.rel.getLast? with
      | none => exact absurd (List.getLast?_eq_none_iff.mp hl) hnil
      | some s =>
        simp only [Option.getD_some]
        intro hc
        injection hc with hc'
        exact hmark (by rw [hl, hc'])
  · intro fs src g fs' created h p hp
    unfold syncFileToGroup at h
    by_cases hm : src.getLast? = some MIRROR_MARKER
    · rw [if_pos hm] at h
      cases h
      simp at hp
    · rw [if_neg hm] at h
      cases hroot : findRootFolder src g with
      | none => rw [hroot] at h; dsimp only at h; cases h; simp at hp
      | some root =>
        rw [hroot] at h
        dsimp only at h
        cases hstat : fs.statFile src with
        | none => rw [hstat] at h; dsimp only at h; simp at h
        | some id =>
          rw [hstat] at h
          dsimp only at h
          simp only [Bind.bind, Except.bind] at h
          cases hrun : syncFileFolders root id src (relOf root src) (fs, []) g.folders with
          | error u => rw [hrun] at h; simp at h
          | ok st =>
            rw [hrun] at h
            cases h
            obtain ⟨-, ext, hext, hall⟩ := syncFileFolders_mono hrun
            simp only [List.nil_append] at hext
            subst hext
            rw [List.mem_map] at hp
            obtain ⟨pr, hpr, rfl⟩ := hp
            obtain ⟨folder, -, hpe⟩ := hall pr hpr
            subst hpe
            rw [List.getLast?_concat]
            cases hl : (relOf root src).getLast? with
            | none =>
              simp only [Option.getD_none]
              intro hc
              injection hc with hc'
              simp [MIRROR_MARKER] at hc'
            | some s =>
              simp only [Option.getD_some]
              intro hc
              injection hc with hc'
              subst hc'
              by_cases hrn : relOf root src = []
              · rw [hrn] at hl; simp at hl
              · have : (relOf root src).getLast? = src.getLast? := by
                  unfold relOf at hrn ⊢
                  have hlt : root.length < src.length := by
                    rcases Nat.lt_or_ge root.length src.length with hlt | hge
                    · exact hlt
                    · exact absurd (List.drop_eq_nil_of_le hge) hrn
                  exact getLast?_drop_of_lt src root.length hlt
                rw [this] at hl
                exact hm hl

theorem C9_marker_never_propagated_witness :
    (["b", "x"] : Path).getLast? ≠ some MIRROR_MARKER :=
  C9_marker_never_propagated.2.2
    ⟨[(["a", "x"], ⟨0, 5⟩)], [(["a"], 0), (["b"], 0)], 0⟩ ["a", "x"]
    ⟨[["a"], ["b"]], true⟩
    ⟨[(["a", "x"], ⟨0, 5⟩), (["b", "x"], ⟨0, 5⟩)], [(["a"], 0), (["b"], 0)], 0⟩
    [["b", "x"]] (by rfl) ["b", "x"] (by decide)

/-! ## Claim C2: the per-destination outcome invariant -/

theorem goodAt_mono {fs fs' : SyncFS} (hx : fs.Extends fs') {folder rel : Path}
    {key : FileId} (h : GoodAt fs folder rel key) : GoodAt fs' folder rel key := by
  rcases h with h1 | ⟨j, hj, hne⟩ | h3 | ⟨hdirs, d, hd, hne⟩
  · obtain ⟨⟨e, he⟩, -, -⟩ := hx
    exact Or.inl (by rw [he]; exact List.mem_append_left _ h1)
  · exact Or.inr (Or.inl ⟨j, statFile_mono hx hj, hne⟩)
  · exact Or.inr (Or.inr (Or.inl (isDir_mono hx h3)))
  · exact Or.inr (Or.inr (Or.inr
      ⟨fun i hi => isDir_mono hx (hdirs i hi), d, dirDev_mono hx hd, hne⟩))

theorem find?_fst_of_mem_nodup {l : List (Path × FileId)} {p : Path}
    {i : FileId} (hnd : (l.map (·.1)).Nodup) (hm : (p, i) ∈ l) :
    (l.find? (fun e => e.1 = p)).map (·.2) = some i := by
  induction l with
  | nil => simp at hm
  | cons q rest ih =>
    simp only [List.map_cons, List.nodup_cons] at hnd
    rcases List.mem_cons.mp hm with rfl | hm'
    · simp
    · have hq : q.1 ≠ p := by
        intro hc
        exact hnd.1 (hc ▸ (List.mem_map.mpr ⟨(p, i), hm', rfl⟩))
      rw [List.find?_cons_of_neg _ (by simpa using hq)]
      exact ih hnd.2 hm'

theorem statFile_of_mem {fs : SyncFS} {p : Path} {i : FileId}
    (hnd : (fs.files.map (·.1)).Nodup) (hm : (p, i) ∈ fs.files) :
    fs.statFile p = some i :=
  find?_fst_of_mem_nodup hnd hm

theorem makedirsGo_dirs_bound {fs : SyncFS} {d : Path} {n : Nat} {fs' : SyncFS}
    (h : makedirsGo fs d n = .ok fs') :
    ∃ ds, fs'.dirs = fs.dirs ++ ds ∧ ∀ e ∈ ds, e.1.length ≤ d.length := by
  induction n generalizing fs' with
  | zero =>
    unfold makedirsGo at h
    cases h
    exact ⟨[], by simp, by simp⟩
  | succ m ih =>
    unfold makedirsGo at h
    cases hrec : makedirsGo fs d m with
    | error e => rw [hrec] at h; simp [Bind.bind, Except.bind] at h
    | ok fs₁ =>
      rw [hrec] at h
      simp only [Bind.bind, Except.bind] at h
      obtain ⟨ds, hds, hlen⟩ := ih hrec
      by_cases hstat : (fs₁.statFile (d.take (m + 1))).isSome
      · simp [hstat] at h
      · simp only [hstat, if_false, Bool.false_eq_true] at h
        by_cases hdir : fs₁.isDir (d.take (m + 1)) = true
        · simp only [hdir, if_true] at h
          cases h
          exact ⟨ds, hds, hlen⟩
        · simp only [hdir, if_false, Bool.false_eq_true] at h
          cases h
          refine ⟨ds ++ [(d.take (m + 1),
            (fs₁.dirDev (d.take (m + 1)).dropLast).getD fs₁.rootDev)],
            by simp [hds], ?_⟩
          intro e he
          rcases List.mem_append.mp he with h1 | h2
          · exact hlen e h1
          · simp only [List.mem_singleton] at h2
            subst h2
            simpa using List.length_take_le (m + 1) d

theorem dropLast_concat_getLast {l r : Path} (h : r ≠ []) :
    (l ++ r).dropLast ++ [(r.getLast?).getD ""] = l ++ r := by
  induction r generalizing l with
  | nil => exact absurd rfl h
  | cons a t ih =>
    cases t with
    | nil => simp
    | cons b t' =>
      have := ih (l := l ++ [a]) (by simp)
      simpa using this

theorem isDir_dirDev_isSome {fs : SyncFS} {p : Path}
    (h : fs.isDir p = true) : ∃ d, fs.dirDev p = some d := by
  unfold SyncFS.isDir at h
  unfold SyncFS.dirDev
  by_cases hp : p = []
  · exact ⟨fs.rootDev, by rw [if_pos hp]⟩
  · rw [if_neg hp]
    rcases Bool.or_eq_true_iff.mp h with h1 | h2
    · exact absurd (by simpa using h1) hp
    · cases hf : fs.dirs.find? (fun e => e.1 = p) with
      | none => rw [hf] at h2; simp at h2
      | some v => exact ⟨v.2, by simp [hf]⟩

/-- One linking attempt leaves its destination in a `GoodAt` state,
provided the source file really carries the identity being linked. -/
theorem linkIntoFolder_good {key : FileId} {src rel : Path}
    {st : SyncFS × List (Path × Path)} {folder : Path}
    {st' : SyncFS × List (Path × Path)}
    (h : linkIntoFolder key src rel st folder = .ok st')
    (hsrc : st.1.statFile src = some key) (hrel : rel ≠ []) :
    GoodAt st'.1 folder rel key := by
  rcases linkIntoFolder_ok_cases h with ⟨hex, heq⟩ | ⟨hex, fs2, hmk, hrest⟩
  · rw [heq]
    unfold SyncFS.pathExists at hex
    rcases Bool.or_eq_true_iff.mp hex with h1 | h2
    · cases hs : st.1.statFile (folder ++ rel) with
      | none => rw [hs] at h1; simp at h1
      | some j =>
        by_cases hjk : j = key
        · subst hjk
          unfold SyncFS.statFile at hs
          cases hf : st.1.files.find? (fun e => e.1 = folder ++ rel) with
          | none => rw [hf] at hs; simp at hs
          | some v =>
            rw [hf] at hs
            simp only [Option.map_some', Option.some_inj] at hs
            have hv1 : v.1 = folder ++ rel := by
              simpa using List.find?_some hf
            have hv : v = (folder ++ rel, j) := by
              cases v; simp_all
            exact Or.inl (hv ▸ List.mem_of_find?_eq_some hf)
        · exact Or.inr (Or.inl ⟨j, hs, hjk⟩)
    · exact Or.inr (Or.inr (Or.inl h2))
  · obtain ⟨hfeq, hext2⟩ := makedirs_ok_extends hmk
    have hsrc2 : fs2.statFile src = some key := statFile_mono hext2 hsrc
    have hdest : (folder ++ rel).dropLast ++ [(rel.getLast?).getD ""] =
        folder ++ rel := dropLast_concat_getLast hrel
    rcases hrest with ⟨fs3, dp, hch, rfl⟩ | ⟨e, hch, rfl⟩
    · obtain ⟨i, hstat3, hdp, hfiles, -, -, -, -, -⟩ :=
        createHardlinkSync_ok_spec hch
      rw [hsrc2] at hstat3
      injection hstat3 with hik
      subst hik
      refine Or.inl ?_
      rw [hfiles, hdp, hdest]
      simp
    · have hdd : fs2.isDir (folder ++ rel).dropLast = true := by
        have := makedirs_ok_isDir hmk (folder ++ rel).dropLast.length (Nat.le_refl _)
        rwa [List.take_length] at this
      rcases createHardlinkSync_err_dirs hch with hc1 | hc2 | hc3 | hc4
      · rw [hsrc2] at hc1; simp at hc1
      · rw [hdd] at hc2; simp at hc2
      · refine Or.inr (Or.inr (Or.inr ?_))
        refine ⟨makedirs_ok_isDir hmk, ?_⟩
        obtain ⟨d, hd⟩ := isDir_dirDev_isSome hdd
        refine ⟨d, hd, ?_⟩
        rw [hsrc2] at hc3
        simp only [Option.map_some'] at hc3
        intro hc
        exact hc3 (by rw [hd, hc])
      · exfalso
        rw [hdest] at hc4
        unfold SyncFS.pathExists at hc4 hex
        rcases Bool.or_eq_true_iff.mp hc4 with h1 | h2
        · have : fs2.statFile (folder ++ rel) = st.1.statFile (folder ++ rel) := by
            unfold SyncFS.statFile
            rw [hfeq]
          rw [this] at h1
          simp only [h1, Bool.true_or] at hex
          exact absurd hex (by simp)
        · obtain ⟨ds, hds, hlen⟩ := makedirsGo_dirs_bound hmk
          unfold SyncFS.isDir at h2
          rcases Bool.or_eq_true_iff.mp h2 with hnil | hfind
          · simp only [decide_eq_true_eq] at hnil
            have : rel = [] := by
              cases folder <;> simp_all
            exact hrel this
          · rw [hds, List.find?_append] at hfind
            cases hf1 : st.1.dirs.find? (fun e => e.1 = folder ++ rel) with
            | some v =>
              have : st.1.isDir (folder ++ rel) = true := by
                unfold SyncFS.isDir
                simp [hf1]
              simp only [this, Bool.or_true] at hex
              exact absurd hex (by simp)
            | none =>
              rw [hf1] at hfind
              simp only [Option.or, Option.isSome] at hfind
              cases hf2 : ds.find? (fun e => e.1 = folder ++ rel) with
              | none => rw [hf2] at hfind; simp at hfind
              | some v =>
                have hv1 : v.1 = folder ++ rel := by
                  simpa using List.find?_some hf2
                have hvmem := List.mem_of_find?_eq_some hf2
                have hle := hlen v hvmem
                rw [hv1] at hle
                have h1 : (folder ++ rel).dropLast.length <
                    (folder ++ rel).length := by
                  rw [List.length_dropLast]
                  have : folder ++ rel ≠ [] := by
                    cases rel
                    · exact absurd rfl hrel
                    · simp
                  have hpos : 0 < (folder ++ rel).length :=
                    List.length_pos_of_ne_nil this
                  omega
                omega

theorem linkEverywhere_good {key : FileId} {src rel : Path}
    {st st' : SyncFS × List (Path × Path)} {folders : List Path}
    (h : linkEverywhere key src rel st folders = .ok st')
    (hsrc : st.1.statFile src = some key) (hrel : rel ≠ []) :
    ∀ folder ∈ folders, GoodAt st'.1 folder rel key := by
  induction folders generalizing st with
  | nil => simp
  | cons f rest ih =>
    unfold linkEverywhere at h
    cases hstep : linkIntoFolder key src rel st f with
    | error e => rw [hstep] at h; simp [Bind.bind, Except.bind] at h
    | ok st₁ =>
      rw [hstep] at h
      simp only [Bind.bind, Except.bind] at h
      intro folder hf
      rcases List.mem_cons.mp hf with rfl | hf'
      · exact goodAt_mono (linkEverywhere_mono h).1
          (linkIntoFolder_good hstep hsrc hrel)
      · exact ih h (statFile_mono (linkIntoFolder_mono hstep).1 hsrc) folder hf'

theorem linkAllEntries_good {folders : List Path}
    {st st' : SyncFS × List (Path × Path)} {entries : List InvEntry}
    (h : linkAllEntries folders st entries = .ok st')
    (hsrcs : ∀ e ∈ entries, st.1.statFile e.src = some e.key ∧ e.rel ≠ []) :
    ∀ e ∈ entries, ∀ folder ∈ folders, GoodAt st'.1 folder e.rel e.key := by
  induction entries generalizing st with
  | nil => simp
  | cons e rest ih =>
    unfold linkAllEntries at h
    cases hstep : linkEverywhere e.key e.src e.rel st folders with
    | error u => rw [hstep] at h; simp [Bind.bind, Except.bind] at h
    | ok st₁ =>
      rw [hstep] at h
      simp only [Bind.bind, Except.bind] at h
      intro e' he' folder hfolder
      obtain ⟨hs, hr⟩ := hsrcs e (by simp)
      rcases List.mem_cons.mp he' with rfl | he''
      · exact goodAt_mono (linkAllEntries_mono h).1
          (linkEverywhere_good hstep hs hr folder hfolder)
      · refine ih h ?_ e' he'' folder hfolder
        intro e2 he2
        obtain ⟨hs2, hr2⟩ := hsrcs e2 (List.mem_cons_of_mem _ he2)
        exact ⟨statFile_mono (linkEverywhere_mono hstep).1 hs2, hr2⟩

theorem mem_eq_of_length_lt_two {α : Type} {l : List α} {a b : α}
    (hlen : l.length < 2) (ha : a ∈ l) (hb : b ∈ l) : a = b := by
  cases l with
  | nil => simp at ha
  | cons x t =>
    cases t with
    | nil => simp at ha hb; rw [ha, hb]
    | cons y t' => simp only [List.length_cons] at hlen; omega

/-- Claim C2, counterexample.  The claim says that after `sync_group`
every relative path present in any member folder is present with the
same identity in all member folders, the only exception being a reported
name collision.  When one inode is reachable at two different relative
paths (here `a/x` and `b/y` are hardlinks of the same file), the
`unique_files` inventory keyed by `(st_dev, st_ino)` keeps only the
first-walked path `x`, so after the pass the relative path `y` is still
present only in folder `b`, absent from `a`, with no name collision at
`a/y` — both member folders exist and are valid. -/
theorem C2_counterexample :
    syncGroup ⟨[(["a", "x"], ⟨0, 7⟩), (["b", "y"], ⟨0, 7⟩)],
        [(["a"], 0), (["b"], 0)], 0⟩ ⟨[["a"], ["b"]], true⟩ =
      .ok (⟨[(["a", "x"], ⟨0, 7⟩), (["b", "y"], ⟨0, 7⟩), (["b", "x"], ⟨0, 7⟩)],
             [(["a"], 0), (["b"], 0)], 0⟩,
           [(["b", "x"], ["a", "x"])]) ∧
    SyncFS.statFile ⟨[(["a", "x"], ⟨0, 7⟩), (["b", "y"], ⟨0, 7⟩),
        (["b", "x"], ⟨0, 7⟩)], [(["a"], 0), (["b"], 0)], 0⟩ ["b", "y"] =
      some ⟨0, 7⟩ ∧
    SyncFS.statFile ⟨[(["a", "x"], ⟨0, 7⟩), (["b", "y"], ⟨0, 7⟩),
        (["b", "x"], ⟨0, 7⟩)], [(["a"], 0), (["b"], 0)], 0⟩ ["a", "y"] = none ∧
    SyncFS.pathExists ⟨[(["a", "x"], ⟨0, 7⟩), (["b", "y"], ⟨0, 7⟩)],
        [(["a"], 0), (["b"], 0)], 0⟩ ["a", "y"] = false ∧
    SyncFS.isDir ⟨[(["a", "x"], ⟨0, 7⟩), (["b", "y"], ⟨0, 7⟩)],
        [(["a"], 0), (["b"], 0)], 0⟩ ["a"] = true ∧
    SyncFS.isDir ⟨[(["a", "x"], ⟨0, 7⟩), (["b", "y"], ⟨0, 7⟩)],
        [(["a"], 0), (["b"], 0)], 0⟩ ["b"] = true := by
  refine ⟨?_, by decide, by decide, by decide, by decide, by decide⟩
  rfl

/-- Claim C2 (amended): after a completed `sync_group` pass on a
well-formed state, every inventoried relative path — the first-walked
path of each file identity — is present with that identity in every
member folder, except where the name is occupied by a different file or
by a directory, or where the destination directory sits on a different
volume than the file; relative paths that are not the first-walked path
of their identity are not propagated. -/
theorem C2_amended {fs : SyncFS} {g : MirrorGroup} {fs' : SyncFS}
    {created : List (Path × Path)} (hwf : fs.WF)
    (h : syncGroup fs g = .ok (fs', created)) :
    ∀ e ∈ inventory fs g, ∀ folder ∈ g.folders,
      (folder ++ e.rel, e.key) ∈ fs'.files ∨
      (∃ j, fs'.statFile (folder ++ e.rel) = some j ∧ j ≠ e.key) ∨
      fs'.isDir (folder ++ e.rel) = true ∨
      fs'.dirDev ((folder ++ e.rel).dropLast) ≠ some e.key.dev := by
  have hstats : ∀ e ∈ inventory fs g,
      fs.statFile e.src = some e.key ∧ e.rel ≠ [] := by
    intro e he
    obtain ⟨folder, -, -, hmem, hunder, -, hrel⟩ := inventory_mem he
    exact ⟨statFile_of_mem hwf.1 hmem,
      by rw [hrel]; exact underFolder_rel_ne_nil hunder⟩
  unfold syncGroup at h
  split at h
  · rename_i hlen
    cases h
    intro e he folder hfolder
    obtain ⟨f0, hf0, -, hmem, hunder, -, hrel⟩ := inventory_mem he
    have hfe : folder = f0 := mem_eq_of_length_lt_two hlen hfolder hf0
    refine Or.inl ?_
    rw [hrel, hfe, underFolder_append hunder]
    exact hmem
  · have hgood := linkAllEntries_good h hstats
    intro e he folder hfolder
    rcases hgood e he folder hfolder with h1 | h2 | h3 | ⟨-, d, hd, hne⟩
    · exact Or.inl h1
    · exact Or.inr (Or.inl h2)
    · exact Or.inr (Or.inr (Or.inl h3))
    · refine Or.inr (Or.inr (Or.inr ?_))
      rw [hd]
      simp [hne]

theorem C2_amended_witness :
    ((["b", "x"] : Path), (⟨0, 7⟩ : FileId)) ∈
      (⟨[(["a", "x"], ⟨0, 7⟩), (["b", "y"], ⟨0, 7⟩), (["b", "x"], ⟨0, 7⟩)],
         [(["a"], 0), (["b"], 0)], 0⟩ : SyncFS).files ∨
    (∃ j, SyncFS.statFile ⟨[(["a", "x"], ⟨0, 7⟩), (["b", "y"], ⟨0, 7⟩),
        (["b", "x"], ⟨0, 7⟩)], [(["a"], 0), (["b"], 0)], 0⟩ ["b", "x"] =
        some j ∧ j ≠ (⟨0, 7⟩ : FileId)) ∨
    SyncFS.isDir ⟨[(["a", "x"], ⟨0, 7⟩), (["b", "y"], ⟨0, 7⟩),
        (["b", "x"], ⟨0, 7⟩)], [(["a"], 0), (["b"], 0)], 0⟩ ["b", "x"] = true ∨
    SyncFS.dirDev ⟨[(["a", "x"], ⟨0, 7⟩), (["b", "y"], ⟨0, 7⟩),
        (["b", "x"], ⟨0, 7⟩)], [(["a"], 0), (["b"], 0)], 0⟩ ["b"] ≠
      some (⟨0, 7⟩ : FileId).dev := by
  have happ := @C2_amended
    ⟨[(["a", "x"], ⟨0, 7⟩), (["b", "y"], ⟨0, 7⟩)], [(["a"], 0), (["b"], 0)], 0⟩
    ⟨[["a"], ["b"]], true⟩
    ⟨[(["a", "x"], ⟨0, 7⟩), (["b", "y"], ⟨0, 7⟩), (["b", "x"], ⟨0, 7⟩)],
      [(["a"], 0), (["b"], 0)], 0⟩
    [(["b", "x"], ["a", "x"])]
    (by refine ⟨by decide, ?_, by decide⟩; decide) (by rfl)
    ⟨⟨0, 7⟩, ["a", "x"], ["x"]⟩ (by decide) ["b"] (by decide)
  simpa using happ

/-! ## Claim C3: idempotence analysis

The second pass is analysed by characterising exactly which file entries
the first pass appends, showing the state stays well-formed, showing the
second inventory assigns every identity the same relative path as the
first (for pairwise non-nested member folders), and concluding that
every linking step of the second pass is the identity. -/

theorem linkIntoFolder_files {key : FileId} {src rel : Path}
    {st : SyncFS × List (Path × Path)} {folder : Path}
    {st' : SyncFS × List (Path × Path)}
    (h : linkIntoFolder key src rel st folder = .ok st')
    (hsrc : st.1.statFile src = some key) (hrel : rel ≠ []) :
    ∃ fext, st'.1.files = st.1.files ++ fext ∧
      ∀ q ∈ fext, q = (folder ++ rel, key) := by
  rcases linkIntoFolder_ok_cases h with ⟨-, heq⟩ | ⟨-, fs2, hmk, hrest⟩
  · exact ⟨[], by rw [heq]; simp, by simp⟩
  · obtain ⟨hfeq, hext2⟩ := makedirs_ok_extends hmk
    rcases hrest with ⟨fs3, dp, hch, rfl⟩ | ⟨e, hch, rfl⟩
    · obtain ⟨i, hstat3, hdp, hfiles, -, -, -, -, -⟩ :=
        createHardlinkSync_ok_spec hch
      rw [statFile_mono hext2 hsrc] at hstat3
      injection hstat3 with hik
      refine ⟨[(folder ++ rel, key)], ?_, by simp⟩
      rw [hfiles, hfeq, hdp, dropLast_concat_getLast hrel, hik]
    · exact ⟨[], by rw [hfeq]; simp, by simp⟩

theorem linkEverywhere_files {key : FileId} {src rel : Path}
    {st st' : SyncFS × List (Path × Path)} {folders : List Path}
    (h : linkEverywhere key src rel st folders = .ok st')
    (hsrc : st.1.statFile src = some key) (hrel : rel ≠ []) :
    ∃ fext, st'.1.files = st.1.files ++ fext ∧
      ∀ q ∈ fext, ∃ folder ∈ folders, q = (folder ++ rel, key) := by
  induction folders generalizing st with
  | nil =>
    unfold linkEverywhere at h
    cases h
    exact ⟨[], by simp, by simp⟩
  | cons f rest ih =>
    unfold linkEverywhere at h
    cases hstep : linkIntoFolder key src rel st f with
    | error e => rw [hstep] at h; simp [Bind.bind, Except.bind] at h
    | ok st₁ =>
      rw [hstep] at h
      simp only [Bind.bind, Except.bind] at h
      obtain ⟨f₁, hf₁, hall₁⟩ := linkIntoFolder_files hstep hsrc hrel
      obtain ⟨f₂, hf₂, hall₂⟩ :=
        ih h (statFile_mono (linkIntoFolder_mono hstep).1 hsrc)
      refine ⟨f₁ ++ f₂, by rw [hf₂, hf₁, List.append_assoc], ?_⟩
      intro q hq
      rcases List.mem_append.mp hq with h1 | h2
      · exact ⟨f, by simp, hall₁ q h1⟩
      · obtain ⟨folder, hfm, hfe⟩ := hall₂ q h2
        exact ⟨folder, by simp [hfm], hfe⟩

theorem linkAllEntries_files {folders : List Path}
    {st st' : SyncFS × List (Path × Path)} {entries : List InvEntry}
    (h : linkAllEntries folders st entries = .ok st')
    (hsrcs : ∀ e ∈ entries, st.1.statFile e.src = some e.key ∧ e.rel ≠ []) :
    ∃ fext, st'.1.files = st.1.files ++ fext ∧
      ∀ q ∈ fext, ∃ e ∈ entries, ∃ folder ∈ folders,
        q = (folder ++ e.rel, e.key) := by
  induction entries generalizing st with
  | nil =>
    unfold linkAllEntries at h
    cases h
    exact ⟨[], by simp, by simp⟩
  | cons e rest ih =>
    unfold linkAllEntries at h
    cases hstep : linkEverywhere e.key e.src e.rel st folders with
    | error u => rw [hstep] at h; simp [Bind.bind, Except.bind] at h
    | ok st₁ =>
      rw [hstep] at h
      simp only [Bind.bind, Except.bind] at h
      obtain ⟨hs, hr⟩ := hsrcs e (by simp)
      obtain ⟨f₁, hf₁, hall₁⟩ := linkEverywhere_files hstep hs hr
      obtain ⟨f₂, hf₂, hall₂⟩ := ih h (by
        intro e2 he2
        obtain ⟨hs2, hr2⟩ := hsrcs e2 (List.mem_cons_of_mem _ he2)
        exact ⟨statFile_mono (linkEverywhere_mono hstep).1 hs2, hr2⟩)
      refine ⟨f₁ ++ f₂, by rw [hf₂, hf₁, List.append_assoc], ?_⟩
      intro q hq
      rcases List.mem_append.mp hq with h1 | h2
      · obtain ⟨folder, hfm, hfe⟩ := hall₁ q h1
        exact ⟨e, by simp, folder, hfm, hfe⟩
      · obtain ⟨e', hem, folder, hfm, hfe⟩ := hall₂ q h2
        exact ⟨e', by simp [hem], folder, hfm, hfe⟩

theorem statFile_isSome_of_mem {fs : SyncFS} {p : Path} {i : FileId}
    (hm : (p, i) ∈ fs.files) : (fs.statFile p).isSome = true := by
  have hfind : (fs.files.find? (fun e => e.1 = p)).isSome = true :=
    List.find?_isSome.mpr ⟨(p, i), hm, by simp⟩
  unfold SyncFS.statFile
  cases hf : fs.files.find? (fun e => e.1 = p) with
  | none => rw [hf] at hfind; simp at hfind
  | some v => simp

theorem statFile_mem {fs : SyncFS} {p : Path} {i : FileId}
    (h : fs.statFile p = some i) : (p, i) ∈ fs.files := by
  unfold SyncFS.statFile at h
  cases hf : fs.files.find? (fun e => e.1 = p) with
  | none => rw [hf] at h; simp at h
  | some v =>
    rw [hf] at h
    simp only [Option.map_some', Option.some_inj] at h
    have hv1 : v.1 = p := by simpa using List.find?_some hf
    have := List.mem_of_find?_eq_some hf
    rw [show v = (p, i) from by cases v; simp_all] at this
    exact this

theorem isDir_statFile_none {fs : SyncFS} (hwf : fs.WF) {p : Path}
    (h : fs.isDir p = true) : fs.statFile p = none := by
  cases hs : fs.statFile p with
  | none => rfl
  | some i => exact absurd h (by rw [hwf.2.2 (p, i) (statFile_mem hs)]; simp)

theorem makedirs_id {fs : SyncFS} {d : Path} (hwf : fs.WF)
    (hdir : ∀ i ≤ d.length, fs.isDir (d.take i) = true) :
    makedirs fs d = .ok fs :=
  makedirsGo_id hdir (fun i hi => isDir_statFile_none hwf (hdir i hi))

theorem pathExists_false_parts {fs : SyncFS} {p : Path}
    (h : fs.pathExists p = false) :
    fs.statFile p = none ∧ fs.isDir p = false := by
  unfold SyncFS.pathExists at h
  rw [Bool.or_eq_false_iff] at h
  exact ⟨Option.not_isSome_iff_eq_none.mp (by simp [h.1]), h.2⟩

theorem isDir_addDir {fs : SyncFS} {q : Path × Nat} {p : Path}
    (hne : q.1 ≠ p) :
    SyncFS.isDir { fs with dirs := fs.dirs ++ [q] } p = fs.isDir p := by
  unfold SyncFS.isDir
  rw [List.find?_append]
  cases hf : fs.dirs.find? (fun e => e.1 = p) with
  | some v => simp [Option.or]
  | none => simp [Option.or, hne]

theorem makedirsGo_WF {fs : SyncFS} {d : Path} {n : Nat} {fs' : SyncFS}
    (hwf : fs.WF) (h : makedirsGo fs d n = .ok fs') : fs'.WF := by
  induction n generalizing fs' with
  | zero => unfold makedirsGo at h; cases h; exact hwf
  | succ m ih =>
    unfold makedirsGo at h
    cases hrec : makedirsGo fs d m with
    | error e => rw [hrec] at h; simp [Bind.bind, Except.bind] at h
    | ok fs₁ =>
      rw [hrec] at h
      simp only [Bind.bind, Except.bind] at h
      have hwf₁ := ih hrec
      by_cases hstat : (fs₁.statFile (d.take (m + 1))).isSome
      · simp [hstat] at h
      · simp only [hstat, if_false, Bool.false_eq_true] at h
        by_cases hdir : fs₁.isDir (d.take (m + 1)) = true
        · simp only [hdir, if_true] at h
          cases h
          exact hwf₁
        · simp only [hdir, if_false, Bool.false_eq_true] at h
          cases h
          obtain ⟨hnd, hpref, hnofd⟩ := hwf₁
          refine ⟨hnd, ?_, ?_⟩
          · intro e he
            obtain ⟨h1, h2⟩ := hpref e he
            exact ⟨h1, fun i hi =>
              isDir_mono (extends_addDirs fs₁ _) (h2 i hi)⟩
          · intro e he
            have hmem : (e.1, e.2) ∈ fs₁.files := by simpa using he
            have hne : (d.take (m + 1)) ≠ e.1 := by
              intro hc
              apply hstat
              rw [hc]
              exact statFile_isSome_of_mem hmem
            rw [isDir_addDir hne]
            exact hnofd e he

theorem createHardlinkSync_WF {fs : SyncFS} {src dd : Path} {name : String}
    {fs' : SyncFS} {dp : Path} (hwf : fs.WF)
    (h : createHardlinkSync fs src dd name = .ok (fs', dp))
    (hpref : ∀ i ≤ dd.length, fs.isDir (dd.take i) = true) : fs'.WF := by
  obtain ⟨i, -, hdp, hfiles, hdirs, -, hex, -, -⟩ := createHardlinkSync_ok_spec h
  obtain ⟨hstat0, hdir0⟩ := pathExists_false_parts hex
  obtain ⟨hnd, hprefw, hnofd⟩ := hwf
  have hisDir_eq : ∀ q, fs'.isDir q = fs.isDir q := by
    intro q
    unfold SyncFS.isDir
    rw [hdirs]
  refine ⟨?_, ?_, ?_⟩
  · rw [hfiles, List.map_append]
    rw [List.nodup_append]
    refine ⟨hnd, by simp, ?_⟩
    intro a ha hb
    simp only [List.map_cons, List.map_nil, List.mem_singleton] at hb
    rw [hb] at ha
    rw [List.mem_map] at ha
    obtain ⟨q, hq, hq1⟩ := ha
    have hmem : (q.1, q.2) ∈ fs.files := by simpa using hq
    have h1 : (fs.statFile dp).isSome = true := by
      rw [← hq1]
      exact statFile_isSome_of_mem hmem
    rw [hstat0] at h1
    simp at h1
  · intro e he
    rw [hfiles] at he
    rcases List.mem_append.mp he with h1 | h2
    · obtain ⟨ha, hb⟩ := hprefw e h1
      exact ⟨ha, fun j hj => by rw [hisDir_eq]; exact hb j hj⟩
    · simp only [List.mem_singleton] at h2
      subst h2
      simp only [hdp]
      refine ⟨by simp, ?_⟩
      intro j hj
      rw [hisDir_eq]
      have hjlen : j ≤ dd.length := by
        simp only [List.length_append, List.length_cons, List.length_nil] at hj
        omega
      rw [List.take_append_of_le_length hjlen]
      exact hpref j hjlen
  · intro e he
    rw [hfiles] at he
    rcases List.mem_append.mp he with h1 | h2
    · rw [hisDir_eq]; exact hnofd e h1
    · simp only [List.mem_singleton] at h2
      subst h2
      rw [hisDir_eq]
      exact hdir0

theorem linkIntoFolder_WF {key : FileId} {src rel : Path}
    {st : SyncFS × List (Path × Path)} {folder : Path}
    {st' : SyncFS × List (Path × Path)} (hwf : st.1.WF)
    (h : linkIntoFolder key src rel st folder = .ok st') : st'.1.WF := by
  rcases linkIntoFolder_ok_cases h with ⟨-, heq⟩ | ⟨-, fs2, hmk, hrest⟩
  · rw [heq]; exact hwf
  · have hwf2 : fs2.WF := makedirsGo_WF hwf hmk
    rcases hrest with ⟨fs3, dp, hch, rfl⟩ | ⟨e, hch, rfl⟩
    · exact createHardlinkSync_WF hwf2 hch (makedirs_ok_isDir hmk)
    · exact hwf2

theorem linkEverywhere_WF {key : FileId} {src rel : Path}
    {st st' : SyncFS × List (Path × Path)} {folders : List Path}
    (hwf : st.1.WF) (h : linkEverywhere key src rel st folders = .ok st') :
    st'.1.WF := by
  induction folders generalizing st with
  | nil => unfold linkEverywhere at h; cases h; exact hwf
  | cons f rest ih =>
    unfold linkEverywhere at h
    cases hstep : linkIntoFolder key src rel st f with
    | error e => rw [hstep] at h; simp [Bind.bind, Except.bind] at h
    | ok st₁ =>
      rw [hstep] at h
      simp only [Bind.bind, Except.bind] at h
      exact ih (linkIntoFolder_WF hwf hstep) h

theorem linkAllEntries_WF {folders : List Path}
    {st st' : SyncFS × List (Path × Path)} {entries : List InvEntry}
    (hwf : st.1.WF) (h : linkAllEntries folders st entries = .ok st') :
    st'.1.WF := by
  induction entries generalizing st with
  | nil => unfold linkAllEntries at h; cases h; exact hwf
  | cons e rest ih =>
    unfold linkAllEntries at h
    cases hstep : linkEverywhere e.key e.src e.rel st folders with
    | error u => rw [hstep] at h; simp [Bind.bind, Except.bind] at h
    | ok st₁ =>
      rw [hstep] at h
      simp only [Bind.bind, Except.bind] at h
      exact ih (linkEverywhere_WF hwf hstep) h

theorem syncGroup_WF {fs : SyncFS} {g : MirrorGroup} {fs' : SyncFS}
    {created : List (Path × Path)} (hwf : fs.WF)
    (h : syncGroup fs g = .ok (fs', created)) : fs'.WF := by
  unfold syncGroup at h
  split at h
  · cases h; exact hwf
  · exact linkAllEntries_WF hwf h

theorem linkIntoFolder_id {key : FileId} {src rel : Path} {fs₁ : SyncFS}
    {folder : Path} {acc : List (Path × Path)} (hwf : fs₁.WF)
    (hgood : GoodAt fs₁ folder rel key)
    (hsrc : fs₁.statFile src = some key) :
    linkIntoFolder key src rel (fs₁, acc) folder = .ok (fs₁, acc) := by
  unfold linkIntoFolder
  by_cases hex : SyncFS.pathExists fs₁ (folder ++ rel) = true
  · rw [if_pos hex]
  · rw [if_neg hex]
    obtain ⟨hstatn, hdirn⟩ :=
      pathExists_false_parts (Bool.not_eq_true _ ▸ hex)
    rcases hgood with h1 | ⟨j, hj, -⟩ | h3 | ⟨hdirs, d, hd, hne⟩
    · have := statFile_isSome_of_mem h1
      rw [hstatn] at this
      simp at this
    · rw [hj] at hstatn; simp at hstatn
    · rw [h3] at hdirn; simp at hdirn
    · have hmk : makedirs fs₁ (folder ++ rel).dropLast = .ok fs₁ :=
        makedirs_id hwf hdirs
      rw [hmk]
      simp only [Bind.bind, Except.bind]
      have hch : createHardlinkSync fs₁ src (folder ++ rel).dropLast
          ((rel.getLast?).getD "") = .error .invalidArgument := by
        unfold createHardlinkSync
        rw [hsrc]
        dsimp only
        have hdd : fs₁.isDir (folder ++ rel).dropLast = true := by
          have := hdirs (folder ++ rel).dropLast.length (Nat.le_refl _)
          rwa [List.take_length] at this
        rw [if_neg (by simp [hdd])]
        rw [if_pos (by rw [hd]; simp [hne])]
      rw [hch]

theorem linkEverywhere_id {key : FileId} {src rel : Path} {fs₁ : SyncFS}
    {folders : List Path} (hwf : fs₁.WF)
    (hgood : ∀ folder ∈ folders, GoodAt fs₁ folder rel key)
    (hsrc : fs₁.statFile src = some key) :
    ∀ acc, linkEverywhere key src rel (fs₁, acc) folders = .ok (fs₁, acc) := by
  induction folders with
  | nil => intro acc; rfl
  | cons f rest ih =>
    intro acc
    unfold linkEverywhere
    rw [linkIntoFolder_id hwf (hgood f (by simp)) hsrc]
    simp only [Bind.bind, Except.bind]
    exact ih (fun folder hf => hgood folder (List.mem_cons_of_mem _ hf)) acc

theorem linkAllEntries_id {folders : List Path} {fs₁ : SyncFS}
    {entries : List InvEntry} (hwf : fs₁.WF)
    (hgood : ∀ e ∈ entries, fs₁.statFile e.src = some e.key ∧
      ∀ folder ∈ folders, GoodAt fs₁ folder e.rel e.key) :
    ∀ acc, linkAllEntries folders (fs₁, acc) entries = .ok (fs₁, acc) := by
  induction entries with
  | nil => intro acc; rfl
  | cons e rest ih =>
    intro acc
    unfold linkAllEntries
    obtain ⟨hs, hg⟩ := hgood e (by simp)
    rw [linkEverywhere_id hwf hg hs acc]
    simp only [Bind.bind, Except.bind]
    exact ih (fun e2 he2 => hgood e2 (List.mem_cons_of_mem _ he2)) acc

theorem foldInv_extends (l : List (Path × Path × FileId))
    (acc : List InvEntry) :
    ∃ more, l.foldl (fun a p => addInv a p.1 p.2) acc = acc ++ more := by
  induction l generalizing acc with
  | nil => exact ⟨[], by simp⟩
  | cons x rest ih =>
    simp only [List.foldl_cons]
    by_cases hs : (acc.find? (fun e => e.key = x.2.2)).isSome = true
    · have ha : addInv acc x.1 x.2 = acc := by unfold addInv; rw [if_pos hs]
      rw [ha]
      exact ih acc
    · have ha : addInv acc x.1 x.2 =
          acc ++ [⟨x.2.2, x.2.1, relOf x.1 x.2.1⟩] := by
        unfold addInv; rw [if_neg hs]
      rw [ha]
      obtain ⟨more, hm⟩ := ih (acc ++ [⟨x.2.2, x.2.1, relOf x.1 x.2.1⟩])
      exact ⟨⟨x.2.2, x.2.1, relOf x.1 x.2.1⟩ :: more,
        by rw [hm, List.append_assoc]; rfl⟩

theorem mem_foldInv_of_mem {l : List (Path × Path × FileId)}
    {acc : List InvEntry} {r : InvEntry} (h : r ∈ acc) :
    r ∈ l.foldl (fun a p => addInv a p.1 p.2) acc := by
  obtain ⟨more, hm⟩ := foldInv_extends l acc
  rw [hm]
  exact List.mem_append_left _ h

theorem keySeen_foldInv_mono {l : List (Path × Path × FileId)}
    {acc : List InvEntry} {i : FileId}
    (h : (acc.find? (fun x => x.key = i)).isSome = true) :
    ((l.foldl (fun a p => addInv a p.1 p.2) acc).find?
      (fun x => x.key = i)).isSome = true := by
  obtain ⟨more, hm⟩ := foldInv_extends l acc
  rw [hm, List.find?_append]
  cases hf : acc.find? (fun x => x.key = i) with
  | none => rw [hf] at h; simp at h
  | some v => simp [Option.or]

theorem keySeen_append_singleton (acc : List InvEntry) (r : InvEntry)
    (i : FileId) :
    (((acc ++ [r]).find? (fun x => x.key = i)).isSome = true) ↔
      ((acc.find? (fun x => x.key = i)).isSome = true ∨ r.key = i) := by
  rw [List.find?_append]
  cases hf : acc.find? (fun x => x.key = i) with
  | some v => simp [Option.or]
  | none =>
    simp only [Option.or, Option.isSome_none, Bool.false_eq_true, false_or]
    by_cases hr : r.key = i
    · simp [List.find?, hr]
    · simp [List.find?, hr]

theorem walkFolder_nil_of_not_isDir {fs : SyncFS} (hwf : fs.WF) {f : Path}
    (hdir : fs.isDir f = false) : walkFolder fs f = [] := by
  unfold walkFolder
  rw [List.filter_eq_nil_iff]
  intro e he
  simp only [Bool.and_eq_true, decide_eq_true_eq, not_and]
  intro hu
  exfalso
  have hpref := (hwf.2.1 e he).2
  unfold underFolder at hu
  simp only [Bool.and_eq_true, decide_eq_true_eq] at hu
  have htake : e.1.take f.length = f := by
    obtain ⟨t, ht⟩ := List.isPrefixOf_iff_prefix.mp hu.1
    rw [← ht, List.take_left]
  have := hpref f.length (by omega)
  rw [htake] at this
  rw [this] at hdir
  simp at hdir

theorem walkFolder_append {fs fs₁ : SyncFS} {fext : List (Path × FileId)}
    (hfiles : fs₁.files = fs.files ++ fext) (f : Path) :
    walkFolder fs₁ f = walkFolder fs f ++
      fext.filter (fun e =>
        underFolder f e.1 && decide (e.1.getLast? ≠ some MIRROR_MARKER)) := by
  unfold walkFolder
  rw [hfiles, List.filter_append]

theorem member_folder_unique {g : MirrorGroup}
    (hdisj : ∀ f₁ ∈ g.folders, ∀ f₂ ∈ g.folders, underFolder f₁ f₂ = false)
    {f f2 : Path} (hf : f ∈ g.folders) (hf2 : f2 ∈ g.folders)
    {r : Path} (hr : r ≠ []) (hu : underFolder f (f2 ++ r) = true) :
    f = f2 := by
  unfold underFolder at hu
  simp only [Bool.and_eq_true, decide_eq_true_eq] at hu
  obtain ⟨hpre, -⟩ := hu
  have hpre' : f <+: f2 ++ r := List.isPrefixOf_iff_prefix.mp hpre
  have hpre2 : f2 <+: f2 ++ r := List.prefix_append f2 r
  rcases List.prefix_or_prefix_of_prefix hpre' hpre2 with h12 | h21
  · rcases Nat.lt_or_ge f.length f2.length with hlt | hge
    · exfalso
      have hu2 : underFolder f f2 = true := by
        unfold underFolder
        simp [List.isPrefixOf_iff_prefix.mpr h12, hlt]
      rw [hdisj f hf f2 hf2] at hu2
      simp at hu2
    · exact h12.eq_of_length_le hge
  · rcases Nat.lt_or_ge f2.length f.length with hlt | hge
    · exfalso
      have hu2 : underFolder f2 f = true := by
        unfold underFolder
        simp [List.isPrefixOf_iff_prefix.mpr h21, hlt]
      rw [hdisj f2 hf2 f hf] at hu2
      simp at hu2
    · exact (h21.eq_of_length_le hge).symm

theorem foldShared {inv : List InvEntry}
    (blk R₀ : List (Path × Path × FileId)) (acc₀ acc₁ : List InvEntry)
    (H0 : (blk ++ R₀).foldl (fun a p => addInv a p.1 p.2) acc₀ = inv)
    (H1 : ∀ r ∈ acc₁, ∃ e₁ ∈ inv, r.key = e₁.key ∧ r.rel = e₁.rel)
    (H2 : ∀ i : FileId, (acc₀.find? (fun x => x.key = i)).isSome = true →
      (acc₁.find? (fun x => x.key = i)).isSome = true) :
    R₀.foldl (fun a p => addInv a p.1 p.2)
        (blk.foldl (fun a p => addInv a p.1 p.2) acc₀) = inv ∧
    (∀ r ∈ blk.foldl (fun a p => addInv a p.1 p.2) acc₁,
      ∃ e₁ ∈ inv, r.key = e₁.key ∧ r.rel = e₁.rel) ∧
    (∀ i : FileId,
      ((blk.foldl (fun a p => addInv a p.1 p.2) acc₀).find?
        (fun x => x.key = i)).isSome = true →
      ((blk.foldl (fun a p => addInv a p.1 p.2) acc₁).find?
        (fun x => x.key = i)).isSome = true) := by
  induction blk generalizing acc₀ acc₁ with
  | nil =>
    simp only [List.nil_append] at H0
    exact ⟨H0, H1, H2⟩
  | cons x blk' ih =>
    simp only [List.cons_append, List.foldl_cons] at H0 ⊢
    by_cases s₀ : (acc₀.find? (fun e => e.key = x.2.2)).isSome = true
    · have s₁ := H2 x.2.2 s₀
      have ha₀ : addInv acc₀ x.1 x.2 = acc₀ := by unfold addInv; rw [if_pos s₀]
      have ha₁ : addInv acc₁ x.1 x.2 = acc₁ := by unfold addInv; rw [if_pos s₁]
      rw [ha₀] at H0 ⊢
      rw [ha₁]
      exact ih acc₀ acc₁ H0 H1 H2
    · have ha₀ : addInv acc₀ x.1 x.2 =
          acc₀ ++ [⟨x.2.2, x.2.1, relOf x.1 x.2.1⟩] := by
        unfold addInv; rw [if_neg s₀]
      by_cases s₁ : (acc₁.find? (fun e => e.key = x.2.2)).isSome = true
      · have ha₁ : addInv acc₁ x.1 x.2 = acc₁ := by unfold addInv; rw [if_pos s₁]
        rw [ha₀] at H0 ⊢
        rw [ha₁]
        refine ih _ acc₁ H0 H1 ?_
        intro i hi
        rcases (keySeen_append_singleton acc₀ _ i).mp hi with h | h
        · exact H2 i h
        · simp only at h
          rw [← h]
          exact s₁
      · have ha₁ : addInv acc₁ x.1 x.2 =
            acc₁ ++ [⟨x.2.2, x.2.1, relOf x.1 x.2.1⟩] := by
          unfold addInv; rw [if_neg s₁]
        rw [ha₀] at H0 ⊢
        rw [ha₁]
        have hrx : (⟨x.2.2, x.2.1, relOf x.1 x.2.1⟩ : InvEntry) ∈ inv := by
          rw [← H0]
          exact mem_foldInv_of_mem (List.mem_append_right _ (by simp))
        refine ih _ _ H0 ?_ ?_
        · intro r hr
          rcases List.mem_append.mp hr with h | h
          · exact H1 r h
          · simp only [List.mem_singleton] at h
            subst h
            exact ⟨_, hrx, rfl, rfl⟩
        · intro i hi
          rcases (keySeen_append_singleton acc₀ _ i).mp hi with h | h
          · exact (keySeen_append_singleton acc₁ _ i).mpr (Or.inl (H2 i h))
          · exact (keySeen_append_singleton acc₁ _ i).mpr (Or.inr h)

theorem foldNew {inv : List InvEntry} (nblk : List (Path × Path × FileId))
    (acc₁ : List InvEntry)
    (hn : ∀ x ∈ nblk, ∃ e₁ ∈ inv, x.2.2 = e₁.key ∧ relOf x.1 x.2.1 = e₁.rel)
    (H1 : ∀ r ∈ acc₁, ∃ e₁ ∈ inv, r.key = e₁.key ∧ r.rel = e₁.rel) :
    ∀ r ∈ nblk.foldl (fun a p => addInv a p.1 p.2) acc₁,
      ∃ e₁ ∈ inv, r.key = e₁.key ∧ r.rel = e₁.rel := by
  induction nblk generalizing acc₁ with
  | nil => simpa using H1
  | cons x rest ih =>
    simp only [List.foldl_cons]
    refine ih _ (fun y hy => hn y (List.mem_cons_of_mem _ hy)) ?_
    intro r hr
    unfold addInv at hr
    split at hr
    · exact H1 r hr
    · rcases List.mem_append.mp hr with h | h
      · exact H1 r h
      · simp only [List.mem_singleton] at h
        subst h
        exact hn x (by simp)

/-- The central inventory-stability induction: walking the member
folders of the post-pass state, in order, assigns every identity the
same relative path that the pre-pass inventory assigned it, because
every appended file sits at its identity's recorded relative path inside
its own (non-nested) member folder. -/
theorem invFold_aux {fs fs₁ : SyncFS} {g : MirrorGroup}
    {fext : List (Path × FileId)}
    (hwf : fs.WF) (hx : fs.Extends fs₁)
    (hfiles : fs₁.files = fs.files ++ fext)
    (hnew : ∀ q ∈ fext, ∃ e ∈ inventory fs g, ∃ f2 ∈ g.folders,
      q = (f2 ++ e.rel, e.key))
    (hdisj : ∀ f₁ ∈ g.folders, ∀ f₂ ∈ g.folders, underFolder f₁ f₂ = false) :
    ∀ rem : List Path, (∀ f ∈ rem, f ∈ g.folders) →
    ∀ acc₀ acc₁ : List InvEntry,
    (walkEntries fs ⟨rem, true⟩).foldl (fun a p => addInv a p.1 p.2) acc₀ =
      inventory fs g →
    (∀ r ∈ acc₁, ∃ e₁ ∈ inventory fs g, r.key = e₁.key ∧ r.rel = e₁.rel) →
    (∀ i : FileId, (acc₀.find? (fun x => x.key = i)).isSome = true →
      (acc₁.find? (fun x => x.key = i)).isSome = true) →
    ∀ r ∈ (walkEntries fs₁ ⟨rem, true⟩).foldl (fun a p => addInv a p.1 p.2) acc₁,
      ∃ e₁ ∈ inventory fs g, r.key = e₁.key ∧ r.rel = e₁.rel := by
  intro rem
  induction rem with
  | nil =>
    intro hrem acc₀ acc₁ H0 H1 H2 r hr
    unfold walkEntries at hr
    simp only [List.flatMap_nil, List.foldl_nil] at hr
    exact H1 r hr
  | cons f rest ih =>
    intro hrem acc₀ acc₁ H0 H1 H2
    have hf : f ∈ g.folders := hrem f (by simp)
    have hrem' : ∀ x ∈ rest, x ∈ g.folders :=
      fun x hx2 => hrem x (List.mem_cons_of_mem _ hx2)
    have hw0 : walkEntries fs ⟨f :: rest, true⟩ =
        (if fs.isDir f then (walkFolder fs f).map (fun e => (f, e)) else []) ++
          walkEntries fs ⟨rest, true⟩ := by
      unfold walkEntries
      rw [List.flatMap_cons]
    have hw1 : walkEntries fs₁ ⟨f :: rest, true⟩ =
        (if fs₁.isDir f then (walkFolder fs₁ f).map (fun e => (f, e)) else []) ++
          walkEntries fs₁ ⟨rest, true⟩ := by
      unfold walkEntries
      rw [List.flatMap_cons]
    set blk₀ := (if fs.isDir f then (walkFolder fs f).map (fun e => (f, e))
      else []) with hblk₀
    set nb := (if fs₁.isDir f then
      ((fext.filter (fun e => underFolder f e.1 &&
        decide (e.1.getLast? ≠ some MIRROR_MARKER))).map (fun e => (f, e)))
      else []) with hnb
    have hdecomp : (if fs₁.isDir f then
        (walkFolder fs₁ f).map (fun e => (f, e)) else []) = blk₀ ++ nb := by
      by_cases h1 : fs₁.isDir f = true
      · rw [if_pos h1, walkFolder_append hfiles f, List.map_append]
        by_cases h0 : fs.isDir f = true
        · rw [hblk₀, if_pos h0, hnb, if_pos h1]
        · rw [hblk₀, if_neg h0, hnb, if_pos h1,
            walkFolder_nil_of_not_isDir hwf (by simpa using h0)]
          simp
      · have h0 : fs.isDir f = false := by
          by_contra hc
          exact h1 (isDir_mono hx (by simpa using hc))
        rw [if_neg h1, hblk₀, h0, hnb, if_neg h1]
        simp
    rw [hw0, List.foldl_append] at H0
    obtain ⟨H0', H1', H2'⟩ :=
      foldShared blk₀ (walkEntries fs ⟨rest, true⟩) acc₀ acc₁
        (by rw [List.foldl_append]; exact H0) H1 H2
    have hn : ∀ x ∈ nb, ∃ e₁ ∈ inventory fs g,
        x.2.2 = e₁.key ∧ relOf x.1 x.2.1 = e₁.rel := by
      intro x hxm
      rw [hnb] at hxm
      split at hxm
      · rw [List.mem_map] at hxm
        obtain ⟨q, hqm, rfl⟩ := hxm
        rw [List.mem_filter] at hqm
        obtain ⟨hqext, hqcond⟩ := hqm
        simp only [Bool.and_eq_true, decide_eq_true_eq] at hqcond
        obtain ⟨e₁, he₁, f2, hf2, hq⟩ := hnew q hqext
        have hrelne : e₁.rel ≠ [] := (inventory_rel_not_marker he₁).1
        have hq1 : q.1 = f2 ++ e₁.rel := by rw [hq]
        have hfeq : f = f2 := by
          refine member_folder_unique hdisj hf hf2 hrelne ?_
          rw [← hq1]
          exact hqcond.1
        refine ⟨e₁, he₁, by rw [hq], ?_⟩
        rw [hq1, hfeq]
        unfold relOf
        rw [List.drop_left]
      · simp at hxm
    have H1'' := foldNew nb _ hn H1'
    have H2'' : ∀ i : FileId,
        ((blk₀.foldl (fun a p => addInv a p.1 p.2) acc₀).find?
          (fun x => x.key = i)).isSome = true →
        ((nb.foldl (fun a p => addInv a p.1 p.2)
          (blk₀.foldl (fun a p => addInv a p.1 p.2) acc₁)).find?
          (fun x => x.key = i)).isSome = true :=
      fun i hi => keySeen_foldInv_mono (H2' i hi)
    intro r hr
    rw [hw1, hdecomp, List.append_assoc, List.foldl_append,
      List.foldl_append] at hr
    exact ih hrem' _ _ H0' H1'' H2'' r hr

/-- Claim C3, counterexample.  The claim says a second consecutive
`sync_group` on an unchanged tree creates zero new links.  With the
nested member folders `[m, n, m/s]`, a directory `m/x`, and a file `n/x`:
the first pass links `n/x` to `m/s/x` (it cannot use `m/x`, a directory
occupies that name).  The second pass walks `m` first, finds the inode
at `m/s/x`, inventories it under relative path `s/x` (skipping `n/x`,
whose identity is already recorded), and then creates the two fresh
links `n/s/x` and `m/s/s/x` on a tree nobody touched in between. -/
theorem C3_counterexample :
    syncGroup ⟨[(["n", "x"], ⟨0, 9⟩)],
        [(["m"], 0), (["n"], 0), (["m", "s"], 0), (["m", "x"], 0)], 0⟩
        ⟨[["m"], ["n"], ["m", "s"]], true⟩ =
      .ok (⟨[(["n", "x"], ⟨0, 9⟩), (["m", "s", "x"], ⟨0, 9⟩)],
             [(["m"], 0), (["n"], 0), (["m", "s"], 0), (["m", "x"], 0)], 0⟩,
           [(["m", "s", "x"], ["n", "x"])]) ∧
    syncGroup ⟨[(["n", "x"], ⟨0, 9⟩), (["m", "s", "x"], ⟨0, 9⟩)],
        [(["m"], 0), (["n"], 0), (["m", "s"], 0), (["m", "x"], 0)], 0⟩
        ⟨[["m"], ["n"], ["m", "s"]], true⟩ =
      .ok (⟨[(["n", "x"], ⟨0, 9⟩), (["m", "s", "x"], ⟨0, 9⟩),
              (["n", "s", "x"], ⟨0, 9⟩), (["m", "s", "s", "x"], ⟨0, 9⟩)],
             [(["m"], 0), (["n"], 0), (["m", "s"], 0), (["m", "x"], 0),
              (["n", "s"], 0), (["m", "s", "s"], 0)], 0⟩,
           [(["n", "s", "x"], ["m", "s", "x"]),
            (["m", "s", "s", "x"], ["m", "s", "x"])]) ∧
    [(["n", "s", "x"], ["m", "s", "x"]),
     (["m", "s", "s", "x"], ["m", "s", "x"])] ≠ ([] : List (Path × Path)) := by
  refine ⟨?_, ?_, by decide⟩ <;> rfl

/-- Claim C3 (amended): `sync_group` is idempotent for groups whose
member folders are pairwise non-nested.  Starting from a well-formed
state, after one completed pass a second pass changes nothing and
returns an empty created mapping. -/
theorem C3_amended {fs : SyncFS} {g : MirrorGroup} {fs₁ : SyncFS}
    {c₁ : List (Path × Path)} (hwf : fs.WF)
    (hdisj : ∀ f₁ ∈ g.folders, ∀ f₂ ∈ g.folders, underFolder f₁ f₂ = false)
    (h : syncGroup fs g = .ok (fs₁, c₁)) :
    syncGroup fs₁ g = .ok (fs₁, []) := by
  have hwf₁ := syncGroup_WF hwf h
  have hstats : ∀ e ∈ inventory fs g,
      fs.statFile e.src = some e.key ∧ e.rel ≠ [] := by
    intro e he
    obtain ⟨folder, -, -, hmem, hunder, -, hrel⟩ := inventory_mem he
    exact ⟨statFile_of_mem hwf.1 hmem,
      by rw [hrel]; exact underFolder_rel_ne_nil hunder⟩
  unfold syncGroup at h ⊢
  split at h
  · rename_i hlen
    cases h
    rw [if_pos hlen]
  · rename_i hlen
    rw [if_neg hlen]
    have hx : fs.Extends fs₁ := (linkAllEntries_mono h).1
    obtain ⟨fext, hfext, hnew0⟩ := linkAllEntries_files h hstats
    have hgoods := linkAllEntries_good h hstats
    have hmatch := invFold_aux hwf hx hfext hnew0
      hdisj g.folders (fun f hf => hf) [] [] rfl (by simp) (by simp)
    have hgood₁ : ∀ e ∈ inventory fs₁ g,
        fs₁.statFile e.src = some e.key ∧
        ∀ folder ∈ g.folders, GoodAt fs₁ folder e.rel e.key := by
      intro e₂ he₂
      constructor
      · obtain ⟨folder, -, -, hmem, -, -, -⟩ := inventory_mem he₂
        exact statFile_of_mem hwf₁.1 hmem
      · intro folder hfolder
        obtain ⟨e₁, he₁, hkey, hrel⟩ := hmatch e₂ he₂
        rw [hkey, hrel]
        exact hgoods e₁ he₁ folder hfolder
    exact linkAllEntries_id hwf₁ hgood₁ []

theorem C3_amended_witness :
    syncGroup ⟨[(["a", "p"], ⟨0, 1⟩), (["b", "p"], ⟨0, 1⟩)],
        [(["a"], 0), (["b"], 0)], 0⟩ ⟨[["a"], ["b"]], true⟩ =
      .ok (⟨[(["a", "p"], ⟨0, 1⟩), (["b", "p"], ⟨0, 1⟩)],
             [(["a"], 0), (["b"], 0)], 0⟩, []) :=
  @C3_amended ⟨[(["a", "p"], ⟨0, 1⟩)], [(["a"], 0), (["b"], 0)], 0⟩
    ⟨[["a"], ["b"]], true⟩
    ⟨[(["a", "p"], ⟨0, 1⟩), (["b", "p"], ⟨0, 1⟩)], [(["a"], 0), (["b"], 0)], 0⟩
    [(["b", "p"], ["a", "p"])] (by unfold SyncFS.WF; decide) (by decide) (by rfl)

/-! ## Claim C5 -/

/-- Claim C5, counterexample.  The claim lists the failure conditions of
`create_hardlink` — source absent, source not a plain file, cross
volume, destination name taken — and asserts the link is created when
none of them holds.  The source has a further guard the claim omits:
`if not os.path.isdir(dest_dir): raise NotADirectoryError`.  Here the
source is a plain regular file, both paths are on volume 0, and the
destination name is free, yet nothing is created because `dest_dir` is a
regular file, not a directory. -/
theorem C5_counterexample :
    OpsFS.existsPath ⟨[(["s"], .file ⟨0, 1⟩), (["d"], .file ⟨0, 2⟩)]⟩ ["s"] =
      true ∧
    OpsFS.isRegularFile ⟨[(["s"], .file ⟨0, 1⟩), (["d"], .file ⟨0, 2⟩)]⟩ ["s"] =
      true ∧
    OpsFS.sameVolume ⟨[(["s"], .file ⟨0, 1⟩), (["d"], .file ⟨0, 2⟩)]⟩ ["s"]
      ["d"] = true ∧
    OpsFS.existsPath ⟨[(["s"], .file ⟨0, 1⟩), (["d"], .file ⟨0, 2⟩)]⟩
      ["d", "n"] = false ∧
    createHardlink ⟨[(["s"], .file ⟨0, 1⟩), (["d"], .file ⟨0, 2⟩)]⟩ ["s"] ["d"]
      (some "n") = .error .notADirectory :=
  ⟨by decide, by decide, by decide, by decide, by rfl⟩

/-- Claim C5 (amended): the full outcome table of `create_hardlink`, in
check order — NotFound when the source does not exist; InvalidArgument
when it exists but is not a plain regular file; NotADirectory when the
destination is not a directory (a check the claim omitted); cross-volume
InvalidArgument; AlreadyExists when the destination name is occupied
(including by a broken symlink, which only the underlying `os.link`
rejects); otherwise the link is created with the source's identity and
the destination path is returned. -/
theorem C5_amended (fs : OpsFS) (src dd : Path) (dn : Option String) :
    (fs.existsPath src = false →
      createHardlink fs src dd dn = .error .notFound) ∧
    (fs.existsPath src = true → fs.isRegularFile src = false →
      createHardlink fs src dd dn = .error .invalidArgument) ∧
    (fs.existsPath src = true → fs.isRegularFile src = true →
      fs.isDirPath dd = false →
      createHardlink fs src dd dn = .error .notADirectory) ∧
    (fs.existsPath src = true → fs.isRegularFile src = true →
      fs.isDirPath dd = true → fs.sameVolume src dd = false →
      createHardlink fs src dd dn = .error .invalidArgument) ∧
    (∀ name, name = dn.getD ((src.getLast?).getD "") →
      fs.existsPath src = true → fs.isRegularFile src = true →
      fs.isDirPath dd = true → fs.sameVolume src dd = true →
      (fs.existsPath (dd ++ [name]) = true ∨
        fs.lookup (dd ++ [name]) ≠ none) →
      createHardlink fs src dd dn = .error .alreadyExists) ∧
    (∀ name, name = dn.getD ((src.getLast?).getD "") →
      fs.existsPath src = true → fs.isRegularFile src = true →
      fs.isDirPath dd = true → fs.sameVolume src dd = true →
      fs.existsPath (dd ++ [name]) = false →
      fs.lookup (dd ++ [name]) = none →
      ∃ id, fs.lookup src = some (.file id) ∧
        createHardlink fs src dd dn =
          .ok (⟨fs.nodes ++ [(dd ++ [name], .file id)]⟩, dd ++ [name])) := by
  have hname : (match dn with
      | some n => n
      | none => (src.getLast?).getD "") = dn.getD ((src.getLast?).getD "") := by
    cases dn <;> rfl
  refine ⟨?_, ?_, ?_, ?_, ?_, ?_⟩
  · intro h1
    unfold createHardlink
    rw [if_pos (by simp [h1])]
  · intro h1 h2
    unfold createHardlink
    rw [if_neg (by simp [h1]), if_pos (by simp [h2])]
  · intro h1 h2 h3
    unfold createHardlink
    rw [if_neg (by simp [h1]), if_neg (by simp [h2]), if_pos (by simp [h3])]
  · intro h1 h2 h3 h4
    unfold createHardlink
    rw [if_neg (by simp [h1]), if_neg (by simp [h2]), if_neg (by simp [h3]),
      if_pos (by simp [h4])]
  · intro name hn h1 h2 h3 h4 h5
    unfold createHardlink
    rw [if_neg (by simp [h1]), if_neg (by simp [h2]), if_neg (by simp [h3]),
      if_neg (by simp [h4])]
    simp only [hname, ← hn]
    rcases h5 with h5 | h5
    · rw [if_pos h5]
    · by_cases h6 : fs.existsPath (dd ++ [name]) = true
      · rw [if_pos h6]
      · rw [if_neg h6]
        cases hsl : fs.lookup src with
        | none =>
          exfalso
          unfold OpsFS.isRegularFile at h2
          rw [hsl] at h2
          simp at h2
        | some nd =>
          cases nd with
          | file id =>
            cases hdl : fs.lookup (dd ++ [name]) with
            | none => exact absurd hdl h5
            | some v => rfl
          | dir d =>
            exfalso
            unfold OpsFS.isRegularFile at h2
            rw [hsl] at h2
            simp at h2
          | symlink t =>
            exfalso
            unfold OpsFS.isRegularFile at h2
            rw [hsl] at h2
            simp at h2
  · intro name hn h1 h2 h3 h4 h5 h6
    unfold createHardlink
    rw [if_neg (by simp [h1]), if_neg (by simp [h2]), if_neg (by simp [h3]),
      if_neg (by simp [h4])]
    simp only [hname, ← hn]
    rw [if_neg (by simp [h5])]
    cases hsl : fs.lookup src with
    | none =>
      exfalso
      unfold OpsFS.isRegularFile at h2
      rw [hsl] at h2
      simp at h2
    | some nd =>
      cases nd with
      | file id =>
        refine ⟨id, rfl, ?_⟩
        rw [h6]
      | dir d =>
        exfalso
        unfold OpsFS.isRegularFile at h2
        rw [hsl] at h2
        simp at h2
      | symlink t =>
        exfalso
        unfold OpsFS.isRegularFile at h2
        rw [hsl] at h2
        simp at h2

/-! ## Claim C6: content fingerprint lemmas -/

theorem natListCode_inj : Function.Injective natListCode := by
  intro l₁ l₂ h
  induction l₁ generalizing l₂ with
  | nil =>
    cases l₂ with
    | nil => rfl
    | cons y ys => unfold natListCode at h; omega
  | cons x xs ih =>
    cases l₂ with
    | nil => unfold natListCode at h; omega
    | cons y ys =>
      unfold natListCode at h
      have h' : Nat.pair x (natListCode xs) = Nat.pair y (natListCode ys) :=
        Nat.add_right_cancel h
      have hp := Nat.pair_eq_pair.mp h'
      rw [hp.1, ih hp.2]

theorem combineHash_inj {a b c d : List Nat}
    (h : combineHash a b = combineHash c d) : a = c ∧ b = d := by
  unfold combineHash at h
  have hp := Nat.pair_eq_pair.mp h
  exact ⟨natListCode_inj hp.1, natListCode_inj hp.2⟩

theorem sortNat_eq_of_perm {l₁ l₂ : List Nat} (h : l₁.Perm l₂) :
    l₁.insertionSort (· ≤ ·) = l₂.insertionSort (· ≤ ·) := by
  apply List.eq_of_perm_of_sorted (r := (· ≤ ·))
  · exact (List.perm_insertionSort _ l₁).trans
      (h.trans (List.perm_insertionSort _ l₂).symm)
  · exact List.sorted_insertionSort _ l₁
  · exact List.sorted_insertionSort _ l₂

theorem perm_of_sortNat_eq {l₁ l₂ : List Nat}
    (h : l₁.insertionSort (· ≤ ·) = l₂.insertionSort (· ≤ ·)) : l₁.Perm l₂ := by
  have h1 := List.perm_insertionSort (· ≤ ·) l₁
  have h2 := List.perm_insertionSort (· ≤ ·) l₂
  rw [h] at h1
  exact h1.symm.trans h2

theorem sortNat_ne_of_count_ne {l₁ l₂ : List Nat} (a : Nat)
    (h : l₁.count a ≠ l₂.count a) :
    l₁.insertionSort (· ≤ ·) ≠ l₂.insertionSort (· ≤ ·) := by
  intro hc
  exact h ((perm_of_sortNat_eq hc).count_eq a)

theorem filter_map_fst {α : Type} (f : String → String) (p : String → Bool)
    (hp : ∀ s, p (f s) = p s) (l : List (String × α)) :
    (l.map (fun e => (f e.1, e.2))).filter (fun e => p e.1) =
      (l.filter (fun e => p e.1)).map (fun e => (f e.1, e.2)) := by
  induction l with
  | nil => rfl
  | cons x rest ih =>
    simp only [List.map_cons, List.filter_cons]
    rw [hp x.1]
    by_cases hx : p x.1 = true
    · rw [if_pos hx, if_pos hx, List.map_cons, ih]
    · rw [if_neg hx, if_neg hx, ih]

mutual
/-- Renaming files and folders, while keeping marker-ness of file names,
does not change a directory's fingerprint. -/
theorem renameTree_fingerprint (σf σd : String → String)
    (hσ : ∀ s, (σf s = MIRROR_MARKER) ↔ (s = MIRROR_MARKER)) :
    ∀ t : DirTree, dirFingerprint (renameTree σf σd t) = dirFingerprint t
  | .node files children => by
    unfold renameTree dirFingerprint
    rw [renameChildren_fingerprint σf σd hσ children]
    rw [filter_map_fst σf (fun s => s ≠ MIRROR_MARKER)
      (fun s => by
        by_cases hs : s = MIRROR_MARKER
        · subst hs
          simp [(hσ MIRROR_MARKER).mpr rfl]
        · have hns : σf s ≠ MIRROR_MARKER := fun hc => hs ((hσ s).mp hc)
          simp [hs, hns])
      files]
    rw [List.map_map]
    rfl

/-- Renaming does not change the child fingerprint list. -/
theorem renameChildren_fingerprint (σf σd : String → String)
    (hσ : ∀ s, (σf s = MIRROR_MARKER) ↔ (s = MIRROR_MARKER)) :
    ∀ l : List (String × DirTree),
      childFingerprints (renameChildren σf σd l) = childFingerprints l
  | [] => rfl
  | (n, t) :: rest => by
    unfold renameChildren childFingerprints
    rw [renameTree_fingerprint σf σd hσ t,
      renameChildren_fingerprint σf σd hσ rest]
end

theorem childFingerprints_append (l₁ l₂ : List (String × DirTree)) :
    childFingerprints (l₁ ++ l₂) =
      childFingerprints l₁ ++ childFingerprints l₂ := by
  induction l₁ with
  | nil => rfl
  | cons x rest ih =>
    obtain ⟨n, t⟩ := x
    rw [List.cons_append]
    simp only [childFingerprints]
    cases hfp : dirFingerprint t with
    | none => dsimp only; exact ih
    | some fp => dsimp only; rw [ih]; rfl

theorem mem_childFingerprints {children : List (String × DirTree)}
    {n : String} {sub : DirTree} {fp : Nat}
    (hmem : (n, sub) ∈ children) (hfp : dirFingerprint sub = some fp) :
    fp ∈ childFingerprints children := by
  induction children with
  | nil => simp at hmem
  | cons x rest ih =>
    obtain ⟨xn, xt⟩ := x
    rcases List.mem_cons.mp hmem with heq | hmem'
    · injection heq with h1 h2
      simp only [childFingerprints]
      rw [← h2, hfp]
      exact List.mem_cons_self fp _
    · simp only [childFingerprints]
      cases hd : dirFingerprint xt with
      | none => dsimp only; exact ih hmem'
      | some fp' => dsimp only; exact List.mem_cons_of_mem fp' (ih hmem')

theorem fingerprint_isSome :
    ∀ (path : List Nat) (t : DirTree) (i : Nat) (nm : String) (c : Bytes),
      getContent t path i = some (nm, c) → nm ≠ MIRROR_MARKER →
      ∃ fp, dirFingerprint t = some fp
  | [], .node files children, i, nm, c, hg, hm => by
    unfold getContent at hg
    have hmem : (nm, c) ∈ files := by
      rw [List.getElem?_eq_some] at hg
      obtain ⟨hlt, hget⟩ := hg
      exact hget ▸ List.getElem_mem hlt
    have hmemf : (nm, c) ∈ files.filter (fun e => e.1 ≠ MIRROR_MARKER) :=
      List.mem_filter.mpr ⟨hmem, by simp [hm]⟩
    have hne : (files.filter (fun e => e.1 ≠ MIRROR_MARKER)).map
        (fun e => hashBytes e.2) ≠ [] := by
      intro hnil
      rw [List.map_eq_nil] at hnil
      rw [hnil] at hmemf
      simp at hmemf
    unfold dirFingerprint
    rw [if_neg (fun hand => hne hand.1)]
    exact ⟨_, rfl⟩
  | j :: rest, .node files children, i, nm, c, hg, hm => by
    unfold getContent at hg
    cases hcj : children[j]? with
    | none => rw [hcj] at hg; exact absurd hg (by simp)
    | some p =>
      obtain ⟨n, sub⟩ := p
      rw [hcj] at hg
      dsimp only at hg
      obtain ⟨fp, hfp⟩ := fingerprint_isSome rest sub i nm c hg hm
      have hmem : (n, sub) ∈ children := by
        rw [List.getElem?_eq_some] at hcj
        obtain ⟨hlt, hget⟩ := hcj
        exact hget ▸ List.getElem_mem hlt
      have hinc : fp ∈ childFingerprints children :=
        mem_childFingerprints hmem hfp
      have hne : childFingerprints children ≠ [] := by
        intro hnil
        rw [hnil] at hinc
        simp at hinc
      unfold dirFingerprint
      rw [if_neg (fun hand => hne hand.2)]
      exact ⟨_, rfl⟩

theorem getContent_replaceContent :
    ∀ (path : List Nat) (t t' : DirTree) (i : Nat) (nm : String) (c c' : Bytes),
      getContent t path i = some (nm, c) →
      replaceContent t path i c' = some t' →
      getContent t' path i = some (nm, c')
  | [], .node files children, t', i, nm, c, c', hg, hr => by
    unfold getContent at hg
    unfold replaceContent at hr
    rw [hg] at hr
    dsimp only at hr
    injection hr with hr'
    rw [← hr']
    unfold getContent
    have hlt : i < files.length := by
      rw [List.getElem?_eq_some] at hg
      exact hg.1
    simp [List.getElem?_set_self, hlt]
  | j :: rest, .node files children, t', i, nm, c, c', hg, hr => by
    unfold getContent at hg
    unfold replaceContent at hr
    cases hcj : children[j]? with
    | none =>
      rw [hcj] at hg
      exact absurd hg (by simp)
    | some p =>
      obtain ⟨n, sub⟩ := p
      rw [hcj] at hg hr
      dsimp only at hg hr
      cases hrs : replaceContent sub rest i c' with
      | none => rw [hrs] at hr; exact absurd hr (by simp)
      | some sub2 =>
        rw [hrs] at hr
        dsimp only at hr
        injection hr with hr'
        rw [← hr']
        unfold getContent
        have hlt : j < children.length := by
          rw [List.getElem?_eq_some] at hcj
          exact hcj.1
        rw [List.getElem?_set_self]
        · dsimp only
          exact getContent_replaceContent rest sub sub2 i nm c c' hg hrs
        · exact hlt

theorem count_shift_ne {A B : List Nat} {x y : Nat} (hxy : y ≠ x) :
    (A ++ y :: B).count x ≠ (A ++ x :: B).count x := by
  simp [List.count_append, List.count_cons, hxy]

theorem hashBytes_ne {c c' : Bytes} (h : c' ≠ c) : hashBytes c' ≠ hashBytes c :=
  fun hc => h (natListCode_inj hc)

theorem replaceContent_fingerprint_ne :
    ∀ (path : List Nat) (t t' : DirTree) (i : Nat) (nm : String) (c c' : Bytes),
      getContent t path i = some (nm, c) → nm ≠ MIRROR_MARKER → c' ≠ c →
      replaceContent t path i c' = some t' →
      dirFingerprint t' ≠ dirFingerprint t
  | [], .node files children, t', i, nm, c, c', hg, hm, hc, hr => by
    unfold getContent at hg
    unfold replaceContent at hr
    rw [hg] at hr
    dsimp only at hr
    injection hr with hr'
    rw [← hr']
    have hlt : i < files.length := by
      rw [List.getElem?_eq_some] at hg
      exact hg.1
    have hget : files[i] = (nm, c) := by
      rw [List.getElem?_eq_some] at hg
      exact hg.2
    have hdec : files = files.take i ++ (nm, c) :: files.drop (i + 1) := by
      conv_lhs => rw [← List.take_append_drop i files,
        List.drop_eq_getElem_cons hlt, hget]
    have hset : files.set i (nm, c') =
        files.take i ++ (nm, c') :: files.drop (i + 1) := by
      rw [List.set_eq_take_append_cons_drop, if_pos hlt]
    have hP : (fun e : String × Bytes => decide ¬(e.1 = MIRROR_MARKER)) (nm, c)
        = true := by simp [hm]
    have hP' : (fun e : String × Bytes => decide ¬(e.1 = MIRROR_MARKER)) (nm, c')
        = true := by simp [hm]
    unfold dirFingerprint
    rw [hset]
    conv_rhs => rw [hdec]
    rw [List.filter_append, List.filter_append, List.filter_cons,
      List.filter_cons]
    rw [if_pos hP, if_pos hP']
    rw [List.map_append, List.map_append, List.map_cons, List.map_cons]
    rw [if_neg (by simp), if_neg (by simp)]
    intro heq
    injection heq with heq'
    have := (combineHash_inj heq').1
    exact sortNat_ne_of_count_ne (hashBytes c)
      (count_shift_ne (hashBytes_ne hc)) this
  | j :: rest, .node files children, t', i, nm, c, c', hg, hm, hc, hr => by
    unfold getContent at hg
    unfold replaceContent at hr
    cases hcj : children[j]? with
    | none =>
      rw [hcj] at hg
      exact absurd hg (by simp)
    | some p =>
      obtain ⟨n, sub⟩ := p
      rw [hcj] at hg hr
      dsimp only at hg hr
      cases hrs : replaceContent sub rest i c' with
      | none => rw [hrs] at hr; exact absurd hr (by simp)
      | some sub2 =>
        rw [hrs] at hr
        dsimp only at hr
        injection hr with hr'
        rw [← hr']
        have ihne : dirFingerprint sub2 ≠ dirFingerprint sub :=
          replaceContent_fingerprint_ne rest sub sub2 i nm c c' hg hm hc hrs
        obtain ⟨fp, hfp⟩ := fingerprint_isSome rest sub i nm c hg hm
        obtain ⟨fp2, hfp2⟩ := fingerprint_isSome rest sub2 i nm c'
          (getContent_replaceContent rest sub sub2 i nm c c' hg hrs) hm
        have hfpne : fp2 ≠ fp := by
          intro h
          exact ihne (by rw [hfp2, hfp, h])
        have hlt : j < children.length := by
          rw [List.getElem?_eq_some] at hcj
          exact hcj.1
        have hget : children[j] = (n, sub) := by
          rw [List.getElem?_eq_some] at hcj
          exact hcj.2
        have hdec : children =
            children.take j ++ (n, sub) :: children.drop (j + 1) := by
          conv_lhs => rw [← List.take_append_drop j children,
            List.drop_eq_getElem_cons hlt, hget]
        have hset : children.set j (n, sub2) =
            children.take j ++ (n, sub2) :: children.drop (j + 1) := by
          rw [List.set_eq_take_append_cons_drop, if_pos hlt]
        have hcf : childFingerprints children =
            childFingerprints (children.take j) ++ fp ::
              childFingerprints (children.drop (j + 1)) := by
          conv_lhs => rw [hdec]
          rw [childFingerprints_append]
          simp only [childFingerprints]
          rw [hfp]
        have hcf2 : childFingerprints (children.set j (n, sub2)) =
            childFingerprints (children.take j) ++ fp2 ::
              childFingerprints (children.drop (j + 1)) := by
          rw [hset, childFingerprints_append]
          simp only [childFingerprints]
          rw [hfp2]
        unfold dirFingerprint
        rw [hcf, hcf2]
        rw [if_neg (by simp), if_neg (by simp)]
        intro heq
        injection heq with heq'
        have := (combineHash_inj heq').2
        exact sortNat_ne_of_count_ne fp (count_shift_ne hfpne) this

theorem treesPerm_length : ∀ {l₁ l₂ : List DirTree}, TreesPerm l₁ l₂ →
    l₁.length = l₂.length := by
  intro l₁ l₂ h
  refine @TreesPerm.rec (fun _ _ _ => True)
    (fun l₁ l₂ _ => l₁.length = l₂.length) ?_ ?_ ?_ ?_ ?_ l₁ l₂ h
  · intro _ _ _ _ _ _ _
    exact trivial
  · rfl
  · intro t₁ t₂ m₁ m₂ _ _ _ ih
    simp [ih]
  · intro t₁ t₂ l
    rfl
  · intro m₁ m₂ m₃ _ _ ih₁ ih₂
    exact ih₁.trans ih₂

/-- Claim C6 counterexample: equal fingerprints do NOT imply that the
recursive contents are byte-identical modulo file and folder names.  An
empty subdirectory fingerprints to `None` and is skipped by the parent
(`_dir_fingerprint` lines 405-409), so the tree with one file `x`
holding byte `1` and the tree with one file `y` holding byte `1` plus an
extra empty subdirectory `e` — a different tree shape — receive the same
fingerprint while their shapes do not correspond. -/
theorem C6_counterexample :
    dirFingerprint (DirTree.node [("x", [1])] []) =
      dirFingerprint (DirTree.node [("y", [1])] [("e", DirTree.node [] [])]) ∧
    ¬ SameShape (DirTree.node [("x", [1])] [])
      (DirTree.node [("y", [1])] [("e", DirTree.node [] [])]) := by
  constructor
  · decide
  · intro h
    cases h with
    | node hf hp =>
      have hl := treesPerm_length hp
      simp at hl

/-- Claim C6, amended: the content fingerprint of `_dir_fingerprint`
is invariant under renaming every file and folder, as long as the
renaming preserves whether a file name equals the mirror marker; and
changing one byte of one contained non-marker file changes the
fingerprint of the enclosing root (hash collisions modelled away by
injective hashes).  The converse direction of the original claim is
false (`equal fingerprint` does not imply `same shape`): empty
subdirectories are invisible to the fingerprint. -/
theorem C6_amended (σf σd : String → String) (t : DirTree) (path : List Nat)
    (i : Nat) (nm : String) (c c' : Bytes) (t' : DirTree)
    (hσ : ∀ s, (σf s = MIRROR_MARKER) ↔ (s = MIRROR_MARKER))
    (hg : getContent t path i = some (nm, c)) (hm : nm ≠ MIRROR_MARKER)
    (hc : c' ≠ c) (hr : replaceContent t path i c' = some t') :
    dirFingerprint (renameTree σf σd t) = dirFingerprint t ∧
    dirFingerprint t' ≠ dirFingerprint t :=
  ⟨renameTree_fingerprint σf σd hσ t,
    replaceContent_fingerprint_ne path t t' i nm c c' hg hm hc hr⟩

/-- Witness for the amended claim C6 at a concrete one-file tree. -/
theorem C6_amended_witness :
    dirFingerprint (renameTree id id (DirTree.node [("a", [0])] [])) =
        dirFingerprint (DirTree.node [("a", [0])] []) ∧
      dirFingerprint (DirTree.node [("a", [1])] []) ≠
        dirFingerprint (DirTree.node [("a", [0])] []) :=
  @C6_amended id id (DirTree.node [("a", [0])] []) [] 0 "a" [0] [1]
    (DirTree.node [("a", [1])] []) (fun _ => Iff.rfl) rfl (by decide)
    (by decide) rfl

/-! ## Claim C7: union-find lemmas -/

theorem valid3_len {par : List Nat} (hv : valid3 par = true) :
    par.length = 3 := by
  unfold valid3 at hv
  rw [Bool.and_eq_true, Bool.and_eq_true] at hv
  simpa using hv.1.1

theorem valid3_bound {par : List Nat} (hv : valid3 par = true) :
    ∀ v ∈ par, v < 3 := by
  unfold valid3 at hv
  rw [Bool.and_eq_true, Bool.and_eq_true] at hv
  intro v hvmem
  exact of_decide_eq_true (List.all_eq_true.mp hv.1.2 v hvmem)

theorem uf_step (par : List Nat) (a b : Nat) (hv : valid3 par = true)
    (ha : a < 3) (hb : b < 3) :
    valid3 (ufUnion par a b) = true ∧
    findRoot (ufUnion par a b) a = findRoot (ufUnion par a b) b ∧
    ∀ x, x < 3 → ∀ y, y < 3 → findRoot par x = findRoot par y →
      findRoot (ufUnion par a b) x = findRoot (ufUnion par a b) y := by
  have hlen := valid3_len hv
  have hall := valid3_bound hv
  rcases par with _ | ⟨p0, _ | ⟨p1, _ | ⟨p2, _ | ⟨p3, rest⟩⟩⟩⟩ <;>
    simp at hlen
  have h0 : p0 < 3 := hall p0 (by simp)
  have h1 : p1 < 3 := hall p1 (by simp)
  have h2 : p2 < 3 := hall p2 (by simp)
  revert hv
  interval_cases p0 <;> interval_cases p1 <;> interval_cases p2 <;>
    interval_cases a <;> interval_cases b <;> decide

theorem uf_find_spec (par : List Nat) (x : Nat) (hv : valid3 par = true)
    (hx : x < 3) :
    valid3 (ufFind par.length par x).1 = true ∧
    (ufFind par.length par x).2 = findRoot par x ∧
    findRoot par x < 3 ∧
    ∀ y, y < 3 → findRoot (ufFind par.length par x).1 y = findRoot par y := by
  have hlen := valid3_len hv
  have hall := valid3_bound hv
  rcases par with _ | ⟨p0, _ | ⟨p1, _ | ⟨p2, _ | ⟨p3, rest⟩⟩⟩⟩ <;>
    simp at hlen
  have h0 : p0 < 3 := hall p0 (by simp)
  have h1 : p1 < 3 := hall p1 (by simp)
  have h2 : p2 < 3 := hall p2 (by simp)
  revert hv
  interval_cases p0 <;> interval_cases p1 <;> interval_cases p2 <;>
    interval_cases x <;> decide

theorem unionFold_spec (i0 : Nat) (is : List Nat) (par : List Nat)
    (hv : valid3 par = true) (h0 : i0 < 3) (hb : ∀ i ∈ is, i < 3) :
    valid3 (is.foldl (fun q2 i => ufUnion q2 i0 i) par) = true ∧
    (∀ x, x < 3 → ∀ y, y < 3 → findRoot par x = findRoot par y →
      findRoot (is.foldl (fun q2 i => ufUnion q2 i0 i) par) x =
        findRoot (is.foldl (fun q2 i => ufUnion q2 i0 i) par) y) ∧
    ∀ i ∈ is, findRoot (is.foldl (fun q2 i => ufUnion q2 i0 i) par) i0 =
      findRoot (is.foldl (fun q2 i => ufUnion q2 i0 i) par) i := by
  induction is generalizing par with
  | nil =>
    exact ⟨hv, fun x _ y _ h => h, fun i hi => absurd hi (List.not_mem_nil i)⟩
  | cons i is' ih =>
    simp only [List.foldl_cons]
    have hi : i < 3 := hb i (List.mem_cons_self i is')
    obtain ⟨hv', heq', hmono'⟩ := uf_step par i0 i hv h0 hi
    obtain ⟨hvf, hmonof, hheadf⟩ := ih (ufUnion par i0 i) hv'
      (fun j hj => hb j (List.mem_cons_of_mem i hj))
    refine ⟨hvf, ?_, ?_⟩
    · intro x hx y hy hxy
      exact hmonof x hx y hy (hmono' x hx y hy hxy)
    · intro j hj
      rcases List.mem_cons.mp hj with heqj | hj'
      · rw [heqj]
        exact hmonof i0 h0 i hi heq'
      · exact hheadf j hj'

theorem applyUnions_spec (entries : List (FileId × List Nat))
    (par : List Nat) (hv : valid3 par = true)
    (hbound : ∀ e ∈ entries, ∀ i ∈ e.2, i < 3) :
    valid3 (applyUnions entries par) = true ∧
    (∀ x, x < 3 → ∀ y, y < 3 → findRoot par x = findRoot par y →
      findRoot (applyUnions entries par) x =
        findRoot (applyUnions entries par) y) ∧
    ∀ e ∈ entries, 2 ≤ e.2.length → ∀ i ∈ e.2, ∀ j ∈ e.2,
      findRoot (applyUnions entries par) i =
        findRoot (applyUnions entries par) j := by
  induction entries generalizing par with
  | nil =>
    exact ⟨hv, fun x _ y _ h => h, fun e he => absurd he (List.not_mem_nil e)⟩
  | cons e rest ih =>
    have hstep : applyUnions (e :: rest) par = applyUnions rest
        (if e.2.length < 2 then par
         else
           match e.2 with
           | [] => par
           | i0 :: rest2 => rest2.foldl (fun q2 i => ufUnion q2 i0 i) par) :=
      rfl
    by_cases hl : e.2.length < 2
    · rw [hstep, if_pos hl]
      obtain ⟨hvf, hmonof, hentf⟩ := ih par hv
        (fun e' he' => hbound e' (List.mem_cons_of_mem e he'))
      refine ⟨hvf, hmonof, ?_⟩
      intro e' he' h2 i hi j hj
      rcases List.mem_cons.mp he' with heq | he''
      · rw [heq] at h2; omega
      · exact hentf e' he'' h2 i hi j hj
    · cases hsplit : e.2 with
      | nil => rw [hsplit] at hl; simp at hl
      | cons i0 rest2 =>
        rw [hstep, if_neg hl, hsplit]
        have hbi : ∀ i ∈ e.2, i < 3 := hbound e (List.mem_cons_self e rest)
        have h0 : i0 < 3 := hbi i0 (by rw [hsplit]; exact List.mem_cons_self i0 rest2)
        have hbr : ∀ i ∈ rest2, i < 3 := fun i hi =>
          hbi i (by rw [hsplit]; exact List.mem_cons_of_mem i0 hi)
        obtain ⟨hv', hmono', hhead'⟩ := unionFold_spec i0 rest2 par hv h0 hbr
        obtain ⟨hvf, hmonof, hentf⟩ := ih _ hv'
          (fun e' he' => hbound e' (List.mem_cons_of_mem e he'))
        refine ⟨hvf, fun x hx y hy hxy =>
          hmonof x hx y hy (hmono' x hx y hy hxy), ?_⟩
        intro e' he' h2 i hi j hj
        rcases List.mem_cons.mp he' with heq | he''
        · rw [heq] at hi hj
          rw [hsplit] at hi hj
          have hix : i < 3 := hbi i (hsplit ▸ hi)
          have hjx : j < 3 := hbi j (hsplit ▸ hj)
          have hieq : findRoot (rest2.foldl (fun q2 i => ufUnion q2 i0 i) par)
              i0 = findRoot (rest2.foldl (fun q2 i => ufUnion q2 i0 i) par)
              i := by
            rcases List.mem_cons.mp hi with hii | hii
            · rw [hii]
            · exact hhead' i hii
          have hjeq : findRoot (rest2.foldl (fun q2 i => ufUnion q2 i0 i) par)
              i0 = findRoot (rest2.foldl (fun q2 i => ufUnion q2 i0 i) par)
              j := by
            rcases List.mem_cons.mp hj with hjj | hjj
            · rw [hjj]
            · exact hhead' j hjj
          exact hmonof i hix j hjx (hieq.symm.trans hjeq)
        · exact hentf e' he'' h2 i hi j hj

theorem mem_addIdx_self (s : List Nat) (i : Nat) : i ∈ addIdx s i := by
  unfold addIdx
  by_cases h : i ∈ s
  · rw [if_pos h]; exact h
  · rw [if_neg h]; simp

theorem mem_addIdx_of_mem {s : List Nat} {i j : Nat} (h : j ∈ s) :
    j ∈ addIdx s i := by
  unfold addIdx
  by_cases hi : i ∈ s
  · rw [if_pos hi]; exact h
  · rw [if_neg hi]; exact List.mem_append_left _ h

theorem mem_of_mem_addIdx {s : List Nat} {i j : Nat}
    (h : j ∈ addIdx s i) : j ∈ s ∨ j = i := by
  unfold addIdx at h
  by_cases hi : i ∈ s
  · rw [if_pos hi] at h; exact Or.inl h
  · rw [if_neg hi] at h
    rcases List.mem_append.mp h with h' | h'
    · exact Or.inl h'
    · right; simpa using h'

theorem find?_map_keyUpd (m : List (FileId × List Nat)) (k k' : FileId)
    (f : List Nat → List Nat) :
    (m.map (fun e => if e.1 = k then (e.1, f e.2) else e)).find?
        (fun e => e.1 = k') =
      (m.find? (fun e => e.1 = k')).map
        (fun e => if e.1 = k then (e.1, f e.2) else e) := by
  induction m with
  | nil => rfl
  | cons e m ih =>
    simp only [List.map_cons]
    have hfst : (if e.1 = k then (e.1, f e.2) else e).1 = e.1 := by
      by_cases h : e.1 = k <;> simp [h]
    by_cases hk' : e.1 = k'
    · have hfst' : (if e.1 = k then (e.1, f e.2) else e).1 = k' := by
        rw [hfst]; exact hk'
      rw [List.find?_cons_of_pos _ (by simp [hfst']),
        List.find?_cons_of_pos _ (by simp [hk'])]
      rfl
    · have hfst' : ¬(if e.1 = k then (e.1, f e.2) else e).1 = k' := by
        rw [hfst]; exact hk'
      rw [List.find?_cons_of_neg _ (by simp [hfst']),
        List.find?_cons_of_neg _ (by simp [hk'])]
      exact ih

theorem idxOf_addKey_self (m : List (FileId × List Nat)) (k : FileId)
    (i : Nat) : idxOf (addKey m k i) k = addIdx (idxOf m k) i := by
  unfold addKey
  by_cases hsome : (m.find? (fun e => e.1 = k)).isSome
  · rw [if_pos hsome]
    obtain ⟨e, hf⟩ := Option.isSome_iff_exists.mp hsome
    have hpred := List.find?_some hf
    have hek : e.1 = k := of_decide_eq_true hpred
    unfold idxOf
    rw [find?_map_keyUpd m k k (fun s => addIdx s i), hf, Option.map_some',
      Option.map_some', Option.map_some']
    simp [if_pos hek]
  · rw [if_neg hsome]
    have hnone : m.find? (fun e => e.1 = k) = none :=
      Option.not_isSome_iff_eq_none.mp hsome
    unfold idxOf
    rw [List.find?_append, hnone]
    rw [List.find?_cons_of_pos _ (by simp)]
    simp [hnone, addIdx]

theorem idxOf_addKey_ne (m : List (FileId × List Nat)) {k k' : FileId}
    (i : Nat) (hkk : k' ≠ k) : idxOf (addKey m k i) k' = idxOf m k' := by
  unfold addKey
  by_cases hsome : (m.find? (fun e => e.1 = k)).isSome
  · rw [if_pos hsome]
    unfold idxOf
    rw [find?_map_keyUpd m k k' (fun s => addIdx s i)]
    cases hm : m.find? (fun e => e.1 = k') with
    | none => rfl
    | some e =>
      have hpred := List.find?_some hm
      have hek' : e.1 = k' := of_decide_eq_true hpred
      have hek : ¬(e.1 = k) := by rw [hek']; exact hkk
      rw [Option.map_some', Option.map_some', Option.map_some',
        if_neg hek]
  · rw [if_neg hsome]
    unfold idxOf
    rw [List.find?_append]
    have hlast : List.find? (fun e => e.1 = k') [(k, [i])] = none := by
      rw [List.find?_cons_of_neg _ (by simp [Ne.symm hkk])]
      rfl
    rw [hlast]
    cases m.find? (fun e => e.1 = k') <;> rfl

theorem entry_of_mem_idxOf {m : List (FileId × List Nat)} {k : FileId}
    {j : Nat} (hj : j ∈ idxOf m k) :
    ∃ e, e ∈ m ∧ e.1 = k ∧ e.2 = idxOf m k := by
  unfold idxOf at hj ⊢
  cases hf : m.find? (fun e => e.1 = k) with
  | none => rw [hf] at hj; simp at hj
  | some e =>
    have hpred := List.find?_some hf
    refine ⟨e, List.mem_of_find?_eq_some hf, of_decide_eq_true hpred, ?_⟩
    rfl

theorem addKey_bound {m : List (FileId × List Nat)} {k : FileId}
    {i n : Nat} (hm : ∀ e ∈ m, ∀ j ∈ e.2, j < n) (hi : i < n) :
    ∀ e ∈ addKey m k i, ∀ j ∈ e.2, j < n := by
  unfold addKey
  by_cases hsome : (m.find? (fun e => e.1 = k)).isSome
  · rw [if_pos hsome]
    intro e he j hj
    obtain ⟨e', he', heq⟩ := List.mem_map.mp he
    by_cases hk : e'.1 = k
    · rw [if_pos hk] at heq
      rw [← heq] at hj
      dsimp only at hj
      rcases mem_of_mem_addIdx hj with h | h
      · exact hm e' he' j h
      · rw [h]; exact hi
    · rw [if_neg hk] at heq
      rw [← heq] at hj
      exact hm e' he' j hj
  · rw [if_neg hsome]
    intro e he j hj
    rcases List.mem_append.mp he with h | h
    · exact hm e h j hj
    · have he' : e = (k, [i]) := by simpa using h
      rw [he'] at hj
      have : j = i := by simpa using hj
      rw [this]; exact hi

theorem foldAddKey_mono (fs : List FileId) (idx : Nat) :
    ∀ (m : List (FileId × List Nat)) (k : FileId) (j : Nat),
      j ∈ idxOf m k →
      j ∈ idxOf (fs.foldl (fun m2 k2 => addKey m2 k2 idx) m) k := by
  induction fs with
  | nil => intro m k j h; exact h
  | cons f fs' ih =>
    intro m k j h
    simp only [List.foldl_cons]
    apply ih
    by_cases hk : k = f
    · rw [hk, idxOf_addKey_self]
      rw [hk] at h
      exact mem_addIdx_of_mem h
    · rw [idxOf_addKey_ne _ _ hk]
      exact h

theorem foldAddKey_mem (fs : List FileId) (idx : Nat) :
    ∀ (m : List (FileId × List Nat)) (k : FileId), k ∈ fs →
      idx ∈ idxOf (fs.foldl (fun m2 k2 => addKey m2 k2 idx) m) k := by
  induction fs with
  | nil => intro m k h; simp at h
  | cons f fs' ih =>
    intro m k h
    simp only [List.foldl_cons]
    rcases List.mem_cons.mp h with heq | h'
    · rw [heq]
      apply foldAddKey_mono
      rw [idxOf_addKey_self]
      exact mem_addIdx_self _ _
    · exact ih _ k h'

theorem foldAddKey_bound (fs : List FileId) (idx n : Nat) (hidx : idx < n) :
    ∀ (m : List (FileId × List Nat)), (∀ e ∈ m, ∀ j ∈ e.2, j < n) →
      ∀ e ∈ fs.foldl (fun m2 k2 => addKey m2 k2 idx) m, ∀ j ∈ e.2, j < n := by
  induction fs with
  | nil => intro m hm; exact hm
  | cons f fs' ih =>
    intro m hm
    simp only [List.foldl_cons]
    exact ih _ (addKey_bound hm hidx)

theorem buildComponents_three (par : List Nat) (A B C : String)
    (hv : valid3 par = true)
    (h01 : findRoot par 0 = findRoot par 1)
    (h02 : findRoot par 0 = findRoot par 2) :
    buildComponents par [A, B, C] = [(findRoot par 0, [A, B, C])] := by
  obtain ⟨hv1, hr1, hlt1, hpres1⟩ := uf_find_spec par 0 hv (by omega)
  obtain ⟨hv2, hr2, hlt2, hpres2⟩ :=
    uf_find_spec (ufFind par.length par 0).1 1 hv1 (by omega)
  obtain ⟨hv3, hr3, hlt3, hpres3⟩ :=
    uf_find_spec (ufFind (ufFind par.length par 0).1.length
      (ufFind par.length par 0).1 1).1 2 hv2 (by omega)
  have hs1 : compStep [A, B, C] (par, []) 0 =
      ((ufFind par.length par 0).1, [(findRoot par 0, [A])]) := by
    unfold compStep
    dsimp only
    rw [hr1]
    rfl
  have hroot2 : (ufFind (ufFind par.length par 0).1.length
      (ufFind par.length par 0).1 1).2 = findRoot par 0 := by
    rw [hr2, hpres1 1 (by omega), ← h01]
  have hs2 : compStep [A, B, C]
      ((ufFind par.length par 0).1, [(findRoot par 0, [A])]) 1 =
      ((ufFind (ufFind par.length par 0).1.length
        (ufFind par.length par 0).1 1).1, [(findRoot par 0, [A, B])]) := by
    unfold compStep
    dsimp only
    rw [hroot2]
    rw [List.find?_cons_of_pos _ (by simp)]
    simp
  have hroot3 : (ufFind (ufFind (ufFind par.length par 0).1.length
      (ufFind par.length par 0).1 1).1.length
      (ufFind (ufFind par.length par 0).1.length
        (ufFind par.length par 0).1 1).1 2).2 = findRoot par 0 := by
    rw [hr3, hpres2 2 (by omega), hpres1 2 (by omega), ← h02]
  have hs3 : compStep [A, B, C]
      ((ufFind (ufFind par.length par 0).1.length
        (ufFind par.length par 0).1 1).1, [(findRoot par 0, [A, B])]) 2 =
      ((ufFind (ufFind (ufFind par.length par 0).1.length
        (ufFind par.length par 0).1 1).1.length
        (ufFind (ufFind par.length par 0).1.length
          (ufFind par.length par 0).1 1).1 2).1,
        [(findRoot par 0, [A, B, C])]) := by
    unfold compStep
    dsimp only
    rw [hroot3]
    rw [List.find?_cons_of_pos _ (by simp)]
    simp
  have hrange : List.range ([A, B, C] : List String).length = [0, 1, 2] := rfl
  unfold buildComponents
  rw [hrange, List.foldl_cons, hs1, List.foldl_cons, hs2, List.foldl_cons,
    hs3, List.foldl_nil]

theorem mem_groupFold (reg : List (List String)) :
    ∀ (comps : List (Nat × List String)) (acc : List (List String))
      (g : List String),
      g ∈ comps.foldl (groupStep reg) acc → g ∈ acc ∨ 2 ≤ g.length := by
  intro comps
  induction comps with
  | nil => intro acc g h; exact Or.inl h
  | cons e rest ih =>
    intro acc g h
    simp only [List.foldl_cons] at h
    rcases ih _ g h with hmem | hlen
    · unfold groupStep at hmem
      by_cases h2 : e.2.length < 2
      · rw [if_pos h2] at hmem
        exact Or.inl hmem
      · rw [if_neg h2] at hmem
        by_cases hany : reg.any (fun s => sameSet e.2 s) = true
        · rw [if_pos hany] at hmem
          exact Or.inl hmem
        · rw [if_neg hany] at hmem
          rcases List.mem_append.mp hmem with h' | h'
          · exact Or.inl h'
          · right
            have hge : g = e.2 := by simpa using h'
            rw [hge]
            omega
    · exact Or.inr hlen

/-- Claim C7: the hardlink-adjacency scan groups folders by connected
components of the shares-a-hardlink relation.  With three folders where
the first and second share identity `k₁` and the second and third share
a different identity `k₂`, and no registered group with the same folder
set, the scan returns the single transitive group of all three folders
— not two two-member groups; and in general every returned group has
at least two members. -/
theorem C7_transitive_union (registry : List (List String))
    (A B C : String) (fA fB fC : List FileId) (k₁ k₂ : FileId)
    (h1a : k₁ ∈ fA) (h1b : k₁ ∈ fB) (h2b : k₂ ∈ fB) (h2c : k₂ ∈ fC)
    (hk : k₂ ≠ k₁)
    (hreg : ∀ s ∈ registry, sameSet [A, B, C] s = false) :
    scanForMirrors registry [(A, fA), (B, fB), (C, fC)] = [[A, B, C]] ∧
    ∀ (reg : List (List String)) (fs : List (String × List FileId))
      (g : List String), g ∈ scanForMirrors reg fs → 2 ≤ g.length := by
  constructor
  · unfold scanForMirrors
    rw [if_neg (by simp)]
    dsimp only
    have hmapsnd : ([(A, fA), (B, fB), (C, fC)] :
        List (String × List FileId)).map Prod.snd = [fA, fB, fC] := rfl
    have hmapfst : ([(A, fA), (B, fB), (C, fC)] :
        List (String × List FileId)).map Prod.fst = [A, B, C] := rfl
    have hlen3 : ([(A, fA), (B, fB), (C, fC)] :
        List (String × List FileId)).length = 3 := rfl
    rw [hmapsnd, hmapfst, hlen3]
    have hbuild : buildInode [fA, fB, fC] =
        fC.foldl (fun m2 k2 => addKey m2 k2 2)
          (fB.foldl (fun m2 k2 => addKey m2 k2 1)
            (fA.foldl (fun m2 k2 => addKey m2 k2 0) [])) := rfl
    have hb3 : ∀ e ∈ buildInode [fA, fB, fC], ∀ j ∈ e.2, j < 3 := by
      rw [hbuild]
      apply foldAddKey_bound fC 2 3 (by omega)
      apply foldAddKey_bound fB 1 3 (by omega)
      apply foldAddKey_bound fA 0 3 (by omega)
      intro e he
      simp at he
    have h01 : ∃ e, e ∈ buildInode [fA, fB, fC] ∧ e.1 = k₁ ∧
        0 ∈ e.2 ∧ 1 ∈ e.2 := by
      have h0 : 0 ∈ idxOf (buildInode [fA, fB, fC]) k₁ := by
        rw [hbuild]
        apply foldAddKey_mono fC 2
        apply foldAddKey_mono fB 1
        exact foldAddKey_mem fA 0 [] k₁ h1a
      have h1 : 1 ∈ idxOf (buildInode [fA, fB, fC]) k₁ := by
        rw [hbuild]
        apply foldAddKey_mono fC 2
        exact foldAddKey_mem fB 1 _ k₁ h1b
      obtain ⟨e, hem, hek, he2⟩ := entry_of_mem_idxOf h0
      refine ⟨e, hem, hek, ?_, ?_⟩
      · rw [he2]; exact h0
      · rw [he2]; exact h1
    have h12 : ∃ e, e ∈ buildInode [fA, fB, fC] ∧ e.1 = k₂ ∧
        1 ∈ e.2 ∧ 2 ∈ e.2 := by
      have h1 : 1 ∈ idxOf (buildInode [fA, fB, fC]) k₂ := by
        rw [hbuild]
        apply foldAddKey_mono fC 2
        exact foldAddKey_mem fB 1 _ k₂ h2b
      have h2 : 2 ∈ idxOf (buildInode [fA, fB, fC]) k₂ := by
        rw [hbuild]
        exact foldAddKey_mem fC 2 _ k₂ h2c
      obtain ⟨e, hem, hek, he2⟩ := entry_of_mem_idxOf h1
      refine ⟨e, hem, hek, ?_, ?_⟩
      · rw [he2]; exact h1
      · rw [he2]; exact h2
    have hv0 : valid3 (List.range 3) = true := by decide
    obtain ⟨hvp, hmono, hent⟩ :=
      applyUnions_spec (buildInode [fA, fB, fC]) (List.range 3) hv0 hb3
    obtain ⟨e₁, he₁, hk₁e, h0e, h1e⟩ := h01
    obtain ⟨e₂, he₂, hk₂e, h1e', h2e'⟩ := h12
    have hlen₁ : 2 ≤ e₁.2.length := by
      by_contra hlt
      push_neg at hlt
      exact absurd (mem_eq_of_length_lt_two hlt h0e h1e) (by omega)
    have hlen₂ : 2 ≤ e₂.2.length := by
      by_contra hlt
      push_neg at hlt
      exact absurd (mem_eq_of_length_lt_two hlt h1e' h2e') (by omega)
    have hr01 := hent e₁ he₁ hlen₁ 0 h0e 1 h1e
    have hr12 := hent e₂ he₂ hlen₂ 1 h1e' 2 h2e'
    have hr02 := hr01.trans hr12
    rw [buildComponents_three _ A B C hvp hr01 hr02]
    rw [List.foldl_cons, List.foldl_nil]
    unfold groupStep
    rw [if_neg (by simp)]
    have hany : registry.any (fun s => sameSet [A, B, C] s) = false := by
      rw [List.any_eq_false]
      intro s hs
      simp [hreg s hs]
    rw [if_neg (by rw [hany]; simp)]
    rfl
  · intro reg fs g hg
    unfold scanForMirrors at hg
    by_cases hlen : fs.length < 2
    · rw [if_pos hlen] at hg
      simp at hg
    · rw [if_neg hlen] at hg
      dsimp only at hg
      rcases mem_groupFold reg _ _ g hg with h | h
      · simp at h
      · exact h

/-- Witness for claim C7 at a concrete three-folder instance. -/
theorem C7_transitive_union_witness :
    scanForMirrors []
        [("a", [⟨0, 1⟩]), ("b", [⟨0, 1⟩, ⟨0, 2⟩]), ("c", [⟨0, 2⟩])] =
      [["a", "b", "c"]] :=
  (@C7_transitive_union [] "a" "b" "c" [⟨0, 1⟩] [⟨0, 1⟩, ⟨0, 2⟩] [⟨0, 2⟩]
    ⟨0, 1⟩ ⟨0, 2⟩ (by decide) (by decide) (by decide) (by decide)
    (by decide) (fun s hs => absurd hs (List.not_mem_nil s))).1

/-! ## Claim C8: watcher debounce lemmas -/

theorem runWatch_stable (D : ℚ) (p : Option ℚ) (f : List ℚ) (m : Nat) :
    runWatch D m ⟨p, none, f⟩ [] = ⟨p, none, f⟩ := by
  cases m with
  | zero => rfl
  | succ k => rfl

theorem runWatch_succ_flush_nil (D : ℚ) (k : Nat) (p : Option ℚ) (τ : ℚ)
    (f : List ℚ) :
    runWatch D (k + 1) ⟨p, some τ, f⟩ [] =
      runWatch D k (flush ⟨p, some τ, f⟩ τ) [] := rfl

theorem runWatch_succ_flush_first (D : ℚ) (k : Nat) (p : Option ℚ) (τ : ℚ)
    (f : List ℚ) (t : ℚ) (rest : List ℚ) (h : τ ≤ t) :
    runWatch D (k + 1) ⟨p, some τ, f⟩ (t :: rest) =
      runWatch D k (flush ⟨p, some τ, f⟩ τ) (t :: rest) := by
  simp only [runWatch]
  rw [if_pos h]

theorem runWatch_succ_create (D : ℚ) (k : Nat) (p : Option ℚ) (τ : ℚ)
    (f : List ℚ) (t : ℚ) (rest : List ℚ) (h : ¬τ ≤ t) :
    runWatch D (k + 1) ⟨p, some τ, f⟩ (t :: rest) =
      runWatch D k (onCreated D ⟨p, some τ, f⟩ t) rest := by
  simp only [runWatch]
  rw [if_neg h]

theorem runWatch_succ_start (D : ℚ) (k : Nat) (p : Option ℚ)
    (f : List ℚ) (t : ℚ) (rest : List ℚ) :
    runWatch D (k + 1) ⟨p, none, f⟩ (t :: rest) =
      runWatch D k (onCreated D ⟨p, none, f⟩ t) rest := rfl

theorem flush_fire (sched now : ℚ) (tm : Option ℚ) (f : List ℚ)
    (h : sched ≤ now) :
    flush ⟨some sched, tm, f⟩ now = ⟨none, none, f ++ [now]⟩ := by
  unfold flush
  dsimp only
  rw [if_pos h]

theorem flush_resched (sched now : ℚ) (tm : Option ℚ) (f : List ℚ)
    (h : ¬sched ≤ now) :
    flush ⟨some sched, tm, f⟩ now =
      ⟨some sched, some (now + max (sched - now) (1 / 20)), f⟩ := by
  unfold flush
  dsimp only
  rw [if_neg h]

theorem onCreated_keep (D : ℚ) (p : Option ℚ) (τ t : ℚ) (f : List ℚ) :
    onCreated D ⟨p, some τ, f⟩ t = ⟨some (t + D), some τ, f⟩ := rfl

theorem onCreated_start (D : ℚ) (p : Option ℚ) (t : ℚ) (f : List ℚ) :
    onCreated D ⟨p, none, f⟩ t = ⟨some (t + D), some (t + D), f⟩ := rfl

theorem getLast?getD_cons (s x : ℚ) (l : List ℚ) :
    ((s :: l).getLast?).getD x = (l.getLast?).getD s := by
  cases l with
  | nil => rfl
  | cons a l' =>
    rw [List.getLast?_cons_cons]
    rcases hx : (a :: l').getLast? with _ | y
    · exact absurd hx (by simp)
    · rfl

theorem runWatch_spec (D : ℚ) :
    ∀ (rest : List ℚ) (tp τ : ℚ) (fuel : Nat),
      2 * rest.length + 2 ≤ fuel →
      gapsOK D tp rest = true →
      tp < τ → τ < tp + D + 1 / 20 →
      ∃ T, runWatch D fuel ⟨some (tp + D), some τ, []⟩ rest =
          ⟨none, none, [T]⟩ ∧
        rest.getLast?.getD tp + D ≤ T ∧
        T < rest.getLast?.getD tp + D + 1 / 20 := by
  intro rest
  induction rest with
  | nil =>
    intro tp τ fuel hfuel hg hτ1 hτ2
    obtain ⟨k, rfl⟩ : ∃ k, fuel = k + 2 := ⟨fuel - 2, by omega⟩
    rw [runWatch_succ_flush_nil]
    by_cases hle : tp + D ≤ τ
    · rw [flush_fire _ _ _ _ hle, runWatch_stable]
      exact ⟨τ, rfl, by simpa using hle, by simpa using hτ2⟩
    · rw [flush_resched _ _ _ _ hle]
      have hτ'ge : tp + D ≤ τ + max (tp + D - τ) (1 / 20) := by
        have := le_max_left (tp + D - τ) (1 / 20 : ℚ)
        linarith
      rw [runWatch_succ_flush_nil, flush_fire _ _ _ _ hτ'ge, runWatch_stable]
      push_neg at hle
      refine ⟨τ + max (tp + D - τ) (1 / 20), rfl, by simpa using hτ'ge, ?_⟩
      rcases le_or_lt (1 / 20 : ℚ) (tp + D - τ) with h | h
      · rw [max_eq_left h]
        simp only [List.getLast?_nil, Option.getD_none]
        linarith
      · rw [max_eq_right h.le]
        simp only [List.getLast?_nil, Option.getD_none]
        linarith
  | cons s rest' ih =>
    intro tp τ fuel hfuel hg hτ1 hτ2
    have hgl : tp < s ∧ s < tp + D ∧ gapsOK D s rest' = true := by
      unfold gapsOK at hg
      rw [Bool.and_eq_true, Bool.and_eq_true] at hg
      exact ⟨of_decide_eq_true hg.1.1, of_decide_eq_true hg.1.2, hg.2⟩
    obtain ⟨hps, hsd, hg'⟩ := hgl
    simp only [List.length_cons] at hfuel
    by_cases hts : τ ≤ s
    · obtain ⟨k, rfl⟩ : ∃ k, fuel = k + 2 := ⟨fuel - 2, by omega⟩
      rw [runWatch_succ_flush_first _ _ _ _ _ _ _ hts]
      have hτs : ¬(tp + D ≤ τ) := by
        push_neg
        linarith
      rw [flush_resched _ _ _ _ hτs]
      have hτ'ge : tp + D ≤ τ + max (tp + D - τ) (1 / 20) := by
        have := le_max_left (tp + D - τ) (1 / 20 : ℚ)
        linarith
      have hτ'lt : τ + max (tp + D - τ) (1 / 20) < tp + D + 1 / 20 := by
        push_neg at hτs
        rcases le_or_lt (1 / 20 : ℚ) (tp + D - τ) with h | h
        · rw [max_eq_left h]
          linarith
        · rw [max_eq_right h.le]
          linarith
      have hnts : ¬(τ + max (tp + D - τ) (1 / 20) ≤ s) := by
        push_neg
        linarith
      rw [runWatch_succ_create _ _ _ _ _ _ _ hnts, onCreated_keep]
      obtain ⟨T, hrun, hT1, hT2⟩ := ih s (τ + max (tp + D - τ) (1 / 20)) k
        (by omega) hg' (by linarith) (by linarith)
      refine ⟨T, hrun, ?_, ?_⟩
      · rw [getLast?getD_cons]
        exact hT1
      · rw [getLast?getD_cons]
        exact hT2
    · obtain ⟨k, rfl⟩ : ∃ k, fuel = k + 1 := ⟨fuel - 1, by omega⟩
      rw [runWatch_succ_create _ _ _ _ _ _ _ hts, onCreated_keep]
      push_neg at hts
      obtain ⟨T, hrun, hT1, hT2⟩ := ih s τ k (by omega) hg' hts (by linarith)
      refine ⟨T, hrun, ?_, ?_⟩
      · rw [getLast?getD_cons]
        exact hT1
      · rw [getLast?getD_cons]
        exact hT2

/-- Claim C8 counterexample: the coalesced sync does NOT run
`debounce_seconds` after the last observed event.  With the default
half-second debounce and creates at times `0` and `1/100`, the timer
started by the first create fires at `1/2`, finds the due time `51/100`
not yet reached, and reschedules with the 50 ms minimum of line 149,
so the single sync runs at `11/20`, not at `51/100`. -/
theorem C8_counterexample :
    runWatch (1 / 2) 6 ⟨none, none, []⟩ [0, 1 / 100] =
      ⟨none, none, [11 / 20]⟩ ∧
    (11 / 20 : ℚ) ≠ 1 / 100 + 1 / 2 := by
  constructor
  · rw [runWatch_succ_start, onCreated_start,
      runWatch_succ_create _ _ _ _ _ _ _ (by norm_num), onCreated_keep,
      runWatch_succ_flush_nil, flush_resched _ _ _ _ (by norm_num)]
    rw [show (0 + 1 / 2 : ℚ) + max (1 / 100 + 1 / 2 - (0 + 1 / 2)) (1 / 20) =
        11 / 20 by rw [max_eq_right (by norm_num)]; norm_num]
    rw [runWatch_succ_flush_nil, flush_fire _ _ _ _ (by norm_num),
      runWatch_stable]
    rfl
  · norm_num

/-- Claim C8, amended: repeated creates of one path, each less than
`debounce_seconds` after the previous, produce exactly one sync action,
and it runs at a time `T` with `t_last + D ≤ T < t_last + D + 1/20`:
the due time is pushed forward by every repeated event, but the firing
flush may come from a timer rescheduled with the 50 ms minimum delay,
up to 50 ms after the due time. -/
theorem C8_amended (D : ℚ) (hD : 0 < D) (t₁ : ℚ) (rest : List ℚ)
    (hg : gapsOK D t₁ rest = true) (fuel : Nat)
    (hfuel : 2 * rest.length + 3 ≤ fuel) :
    ∃ T, runWatch D fuel ⟨none, none, []⟩ (t₁ :: rest) =
        ⟨none, none, [T]⟩ ∧
      rest.getLast?.getD t₁ + D ≤ T ∧
      T < rest.getLast?.getD t₁ + D + 1 / 20 := by
  obtain ⟨k, rfl⟩ : ∃ k, fuel = k + 1 := ⟨fuel - 1, by omega⟩
  rw [runWatch_succ_start, onCreated_start]
  exact runWatch_spec D rest t₁ (t₁ + D) k (by omega) hg (by linarith)
    (by linarith)

/-- Witness for the amended claim C8 at a single create. -/
theorem C8_amended_witness :
    runWatch (1 / 2) 4 ⟨none, none, []⟩ [0] = ⟨none, none, [1 / 2]⟩ ∧
    ((0 : ℚ) + 1 / 2 ≤ 1 / 2 ∧ (1 / 2 : ℚ) < 0 + 1 / 2 + 1 / 20) := by
  obtain ⟨T, hrun, hT1, hT2⟩ := C8_amended (1 / 2) (by norm_num) 0 []
    (by rfl) 4 (by norm_num)
  have hcomp : runWatch (1 / 2) 4 (⟨none, none, []⟩ : WatchState) [0] =
      ⟨none, none, [(1 / 2 : ℚ)]⟩ := by
    rw [runWatch_succ_start, onCreated_start, runWatch_succ_flush_nil,
      flush_fire _ _ _ _ (by norm_num), runWatch_stable]
    norm_num
  exact ⟨hcomp, by norm_num, by norm_num⟩

theorem C5_amended_witness :
    createHardlink ⟨[(["s"], .file ⟨0, 1⟩), (["d"], .dir 0)]⟩ ["s"] ["d"]
        (some "n") =
      .ok (⟨[(["s"], .file ⟨0, 1⟩), (["d"], .dir 0),
             (["d", "n"], .file ⟨0, 1⟩)]⟩, ["d", "n"]) := by
  have happ := (C5_amended ⟨[(["s"], .file ⟨0, 1⟩), (["d"], .dir 0)]⟩ ["s"]
    ["d"] (some "n")).2.2.2.2.2 "n" (by rfl) (by decide) (by decide)
    (by decide) (by decide) (by decide) (by decide)
  obtain ⟨id, hid, hres⟩ := happ
  have hl : OpsFS.lookup ⟨[(["s"], .file ⟨0, 1⟩), (["d"], .dir 0)]⟩ ["s"] =
      some (.file ⟨0, 1⟩) := by rfl
  rw [hl] at hid
  injection hid with hid1
  injection hid1 with hid2
  rw [← hid2] at hres
  exact hres

end HardlinkManager
